import Mathlib

/-!
Verification of the phylogeny utility library (`ALifeStdDev/phylogeny/utils.py`).

The Python module operates on `networkx.DiGraph` objects whose nodes are taxa
carrying open attribute dictionaries.  We embed such graphs shallowly: node
ids are strings, attribute dictionaries are insertion-ordered association
lists over a `Value` type covering the Python values the library manipulates
(integers and strings), possibly-raising Python code is embedded in
`Except Err`, and the unbounded `while True:` loops of the source are embedded
as fuel-indexed functions returning `Option` (`none` = the loop has not
finished within the given fuel).
-/

set_option maxHeartbeats 1000000

namespace ALife

/-- Python runtime values appearing as taxon attribute values in this library:
integers (times) and strings (labels and the `"none"` sentinel). -/
inductive Value where
  | int : Int → Value
  | str : String → Value
deriving DecidableEq

/-- Python exceptions raised by the module (identified by raise site). -/
inductive Err where
  | typeError
  | keyError (k : String)
  | missingAttribute (attr : String)
  | notFound
  | notAsexual
  | notAsexualLineage
  | missingAttributes
  | reservedAttribute (attr : String)
  | indexError
deriving DecidableEq

/-- Python dict lookup `d.get(k)`, on an insertion-ordered association list. -/
def assocLookup {β : Type} : List (String × β) → String → Option β
  | [], _ => none
  | p :: rest, k => if p.1 = k then some p.2 else assocLookup rest k

/-- Python `k in d`. -/
def assocHas {β : Type} (m : List (String × β)) (k : String) : Bool :=
  (assocLookup m k).isSome

/-- Python dict assignment `d[k] = v`: overwrite in place keeping the key's
position, or append a fresh key at the end. -/
def assocSet {β : Type} : List (String × β) → String → β → List (String × β)
  | [], k, v => [(k, v)]
  | p :: rest, k, v => if p.1 = k then (k, v) :: rest else p :: assocSet rest k v

/-- A node's attribute dictionary. -/
abbrev AttrMap := List (String × Value)

/-- Python dict indexing `d[k]`; raises `KeyError` when the key is absent. -/
def keyGet (m : AttrMap) (k : String) : Except Err Value :=
  match assocLookup m k with
  | some v => Except.ok v
  | none => Except.error (Err.keyError k)

/-- Python 3 `<` on the values used by the library: defined within one type
(strings lexicographically by code point, as in Python), a `TypeError` across
types. -/
def pyLt : Value → Value → Except Err Bool
  | Value.int a, Value.int b => Except.ok (decide (a < b))
  | Value.str a, Value.str b => Except.ok (decide (a.data < b.data))
  | _, _ => Except.error Err.typeError

/-- Python 3 `>` (reflected `<`). -/
def pyGt (a b : Value) : Except Err Bool := pyLt b a

/-- A `networkx.DiGraph` as consumed by the module: insertion-ordered nodes
with attribute dictionaries, and a directed edge list. -/
structure Graph where
  nodes : List (String × AttrMap)
  edges : List (String × String)
deriving DecidableEq

/-- `graph.nodes` as a list of ids, in insertion order. -/
def nodeIds (g : Graph) : List String := g.nodes.map Prod.fst

/-- `graph.nodes[i]`: the attribute dictionary stored at node `i`. -/
def attrsOf (g : Graph) (i : String) : AttrMap :=
  match g.nodes.find? (fun p => p.1 == i) with
  | some p => p.2
  | none => []

/-- `list(graph.predecessors(i))`. -/
def preds (g : Graph) (i : String) : List String :=
  (g.edges.filter (fun e => e.2 == i)).map Prod.fst

/-- `list(graph.successors(i))`. -/
def succs (g : Graph) (i : String) : List String :=
  (g.edges.filter (fun e => e.1 == i)).map Prod.snd

/-- `all_taxa_have_attribute(phylogeny, attribute)`. -/
def all_taxa_have_attribute (g : Graph) (attr : String) : Bool :=
  g.nodes.all (fun p => assocHas p.2 attr)

/-- `all_taxa_have_attributes(phylogeny, attribute_list)`. -/
def all_taxa_have_attributes (g : Graph) (attribute_list : List String) : Bool :=
  g.nodes.all (fun p => attribute_list.all (fun a => assocHas p.2 a))

/-- `is_asexual(phylogeny)`: no node has more than one predecessor. -/
def is_asexual (g : Graph) : Bool :=
  g.nodes.all (fun p => ! decide ((preds g p.1).length > 1))

/-- `get_root_ids(phylogeny)`: ids of nodes with no predecessors. -/
def get_root_ids (g : Graph) : List String :=
  (g.nodes.filter (fun p => decide ((preds g p.1).length = 0))).map Prod.fst

/-- `get_leaf_taxa_ids(phylogeny)`: ids of nodes with no successors. -/
def get_leaf_taxa_ids (g : Graph) : List String :=
  (g.nodes.filter (fun p => decide ((succs g p.1).length = 0))).map Prod.fst

/-- `get_num_roots(phylogeny)`. -/
def get_num_roots (g : Graph) : Nat := (get_root_ids g).length

/-- `validate_destruction_time(phylogeny, attribute)`. -/
def validate_destruction_time (g : Graph) (attr : String) : Except Err Unit :=
  if all_taxa_have_attribute g attr then Except.ok ()
  else Except.error (Err.missingAttribute attr)

/-- `validate_origin_time(phylogeny, attribute)`. -/
def validate_origin_time (g : Graph) (attr : String) : Except Err Unit :=
  if all_taxa_have_attribute g attr then Except.ok ()
  else Except.error (Err.missingAttribute attr)

/-- `taxon_is_alive(node, time, not_destroyed_value, destruction_attribute,
origin_attribute)`, with Python's evaluation order and short-circuiting.
Note the source reads the literal key `"destruction_time"` (not the
`destruction_attribute` parameter) for the sentinel comparison. -/
def taxon_is_alive (node : AttrMap) (time : Value) (not_destroyed_value : Value)
    (destruction_attribute : String) (origin_attribute : String) : Except Err Bool := do
  let dt ← keyGet node ("destruction_time")
  let notDeadYet ←
    if dt = not_destroyed_value then pure true
    else do
      let dv ← keyGet node destruction_attribute
      pyGt dv time
  if notDeadYet then
    if time = Value.str ("present") then pure true
    else do
      let ov ← keyGet node origin_attribute
      pyLt ov time
  else pure false

/-- The list comprehension of `get_extant_taxa_ids`: filter the node list in
order through `taxon_is_alive`, propagating the first exception. -/
def extantIdsAux (time not_destroyed_value : Value)
    (destruction_attribute origin_attribute : String) :
    List (String × AttrMap) → Except Err (List String)
  | [] => Except.ok []
  | p :: rest => do
    let b ← taxon_is_alive p.2 time not_destroyed_value destruction_attribute origin_attribute
    let r ← extantIdsAux time not_destroyed_value destruction_attribute origin_attribute rest
    Except.ok (if b then p.1 :: r else r)

/-- `get_extant_taxa_ids(phylogeny, time, not_destroyed_value,
destruction_attribute, origin_attribute)`. -/
def get_extant_taxa_ids (g : Graph) (time : Value) (not_destroyed_value : Value)
    (destruction_attribute : String) (origin_attribute : String) :
    Except Err (List String) := do
  validate_destruction_time g destruction_attribute
  if time = Value.str ("present") then pure ()
  else validate_origin_time g origin_attribute
  extantIdsAux time not_destroyed_value destruction_attribute origin_attribute g.nodes

/-- `get_roots(phylogeny)`.  The Python function returns the attribute
dictionaries *aliased from the graph* and then executes `roots[r]["id"] = r`,
so the same `"id"` insertion is observable both in the returned mapping and in
the graph's stored node data.  We model the call as returning the result
together with the mutated graph. -/
def get_roots (g : Graph) : List (String × AttrMap) × Graph :=
  ((g.nodes.filter (fun p => decide ((preds g p.1).length = 0))).map
     (fun p => (p.1, assocSet p.2 ("id") (Value.str p.1))),
   { nodes := g.nodes.map
       (fun p => if decide ((preds g p.1).length = 0) then
          (p.1, assocSet p.2 ("id") (Value.str p.1)) else p),
     edges := g.edges })

/-- `get_leaf_taxa(phylogeny)`, with the same aliasing side effect as
`get_roots`. -/
def get_leaf_taxa (g : Graph) : List (String × AttrMap) × Graph :=
  ((g.nodes.filter (fun p => decide ((succs g p.1).length = 0))).map
     (fun p => (p.1, assocSet p.2 ("id") (Value.str p.1))),
   { nodes := g.nodes.map
       (fun p => if decide ((succs g p.1).length = 0) then
          (p.1, assocSet p.2 ("id") (Value.str p.1)) else p),
     edges := g.edges })

/-! ### Weak connectivity

`has_single_root` and `get_num_independent_phylogenies` delegate to
`networkx.is_weakly_connected` and
`networkx.number_weakly_connected_components`, which are external library
code.  The two defs below are modelled from the spec: undirected reachability
is computed by a saturating frontier expansion, a graph is weakly connected
when it is a single connected component (in particular the empty graph, which
has zero components, is not), and the number of weakly connected components
counts the nodes not connected to any earlier node. -/

/-- Is there an edge between `a` and `b` in either direction? -/
def undirAdj (g : Graph) (a b : String) : Bool :=
  g.edges.any (fun e => (e.1 == a && e.2 == b) || (e.1 == b && e.2 == a))

/-- One round of undirected closure: add every node adjacent to the set. -/
def stepSet (g : Graph) (s : List String) : List String :=
  s ++ (nodeIds g).dedup.filter
    (fun b => !s.contains b && s.any (fun x => undirAdj g x b))

/-- `n` rounds of undirected closure. -/
def iterSet (g : Graph) : Nat → List String → List String
  | 0, s => s
  | n + 1, s => stepSet g (iterSet g n s)

/-- Undirected reachability: `b` is in the saturated closure of `{a}`. -/
def uReach (g : Graph) (a b : String) : Bool :=
  (iterSet g (nodeIds g).length [a]).contains b

/-- Modelled from the spec: `networkx.is_weakly_connected` — the graph,
treated as undirected, forms a single connected component. -/
def is_weakly_connected (g : Graph) : Bool :=
  match g.nodes with
  | [] => false
  | p :: _ => g.nodes.all (fun q => uReach g p.1 q.1)

/-- Representatives of weakly connected components: the nodes not reachable
from any earlier node in iteration order. -/
def repsAux (g : Graph) : List String → List String → List String
  | [], _ => []
  | x :: rest, seen =>
    if seen.any (fun j => uReach g j x) then repsAux g rest (seen ++ [x])
    else x :: repsAux g rest (seen ++ [x])

/-- Modelled from the spec: `networkx.number_weakly_connected_components`. -/
def number_weakly_connected_components (g : Graph) : Nat :=
  (repsAux g (nodeIds g) []).length

/-- `has_single_root(phylogeny)`: wraps `networkx.is_weakly_connected`. -/
def has_single_root (g : Graph) : Bool := is_weakly_connected g

/-- `get_num_independent_phylogenies(phylogeny)`: wraps
`networkx.number_weakly_connected_components`. -/
def get_num_independent_phylogenies (g : Graph) : Nat :=
  number_weakly_connected_components g

/-! ### Lineage extraction -/

/-- The backward `while True:` loop of `extract_asexual_lineage`: collect ids
by following the first predecessor until a node with no predecessors; `none`
when the loop has not finished within `fuel` iterations. -/
def backWalkF (g : Graph) : Nat → String → Option (List String)
  | 0, _ => none
  | fuel + 1, i =>
    match preds g i with
    | [] => some [i]
    | p :: _ => (backWalkF g fuel p).map (fun l => i :: l)

/-- `phylogeny.subgraph(keep).copy()`: the induced subgraph over `keep`. -/
def inducedSubgraph (g : Graph) (keep : List String) : Graph :=
  { nodes := g.nodes.filter (fun p => keep.contains p.1),
    edges := g.edges.filter (fun e => keep.contains e.1 && keep.contains e.2) }

/-- `extract_asexual_lineage(phylogeny, taxa_id)`. -/
def extract_asexual_lineage (fuel : Nat) (g : Graph) (taxa_id : String) :
    Option (Except Err Graph) :=
  if ! (nodeIds g).contains taxa_id then some (Except.error Err.notFound)
  else if ! is_asexual g then some (Except.error Err.notAsexual)
  else
    match backWalkF g fuel taxa_id with
    | none => none
    | some l => some (Except.ok (inducedSubgraph g l))

/-! ### Asexual-lineage check -/

/-- The forward `while True:` loop of `is_asexual_lineage`: `False` at a node
with more than one successor, `True` at a node with none. -/
def lineageCheckLoop (g : Graph) : Nat → String → Option Bool
  | 0, _ => none
  | fuel + 1, i =>
    match succs g i with
    | [] => some true
    | [j] => lineageCheckLoop g fuel j
    | _ => some false

/-- `is_asexual_lineage(phylogeny)`. -/
def is_asexual_lineage (fuel : Nat) (g : Graph) : Option Bool :=
  match get_root_ids g with
  | [r] => lineageCheckLoop g fuel r
  | _ => some false

/-! ### Lineage abstraction -/

/-- One state node of the abstract lineage produced by
`abstract_asexual_lineage`, i.e. the attribute dictionary the Python code
builds at `abstract_lineage.nodes[state_id]`, with its fixed keys split into
fields (`origin_time`/`destruction_time` are `none` when the key was never
set). -/
structure AState where
  state_id : Nat
  node_state : List Value
  attrs : AttrMap
  origin_time : Option Value
  destruction_time : Option Value
  members : List (String × AttrMap)
deriving DecidableEq

/-- The abstract lineage graph: states in insertion (= `state_id`) order plus
the explicitly added edges. -/
structure AbstractLineage where
  states : List AState
  edges : List (Nat × Nat)
deriving DecidableEq

/-- `[lineage.nodes[i][attr] for attr in attribute_list]`. -/
def projState (g : Graph) (i : String) : List String → Except Err (List Value)
  | [] => Except.ok []
  | a :: rest => do
    let v ← keyGet (attrsOf g i) a
    let r ← projState g i rest
    Except.ok (v :: r)

/-- The `for attr in attribute_list:` loop copying attribute values onto a
state node. -/
def attrPairs (g : Graph) (i : String) : List String → Except Err AttrMap
  | [] => Except.ok []
  | a :: rest => do
    let v ← keyGet (attrsOf g i) a
    let r ← attrPairs g i rest
    Except.ok ((a, v) :: r)

/-- Opening a new state node from taxon `i` (lines 355-365 of the source):
`state_id`, `node_state`, `origin_time` when tracked, the attribute values,
and a singleton `members`; the source does *not* set `destruction_time` here. -/
def mkState (g : Graph) (attribute_list : List String) (trackO : Bool)
    (oattr : String) (sid : Nat) (i : String) : Except Err AState := do
  let ns ← projState g i attribute_list
  let ot ← if trackO then do
      let v ← keyGet (attrsOf g i) oattr
      pure (some v)
    else pure (none : Option Value)
  let av ← attrPairs g i attribute_list
  Except.ok { state_id := sid, node_state := ns, attrs := av, origin_time := ot,
              destruction_time := none, members := [(i, attrsOf g i)] }

/-- Loop accumulator: the closed states so far, the currently open state, and
the edges added so far. -/
structure AbsAcc where
  done : List AState
  cur : AState
  edges : List (Nat × Nat)
deriving DecidableEq

/-- The graph assembled from the accumulator when the walk reaches the tip. -/
def finishAcc (acc : AbsAcc) : AbstractLineage :=
  { states := acc.done ++ [acc.cur], edges := acc.edges }

/-- The `while True:` loop of `abstract_asexual_lineage` (lines 340-366). -/
def abstractLoop (g : Graph) (attribute_list : List String)
    (trackO trackD : Bool) (oattr dattr : String) :
    Nat → String → AbsAcc → Option (Except Err AbstractLineage)
  | 0, _, _ => none
  | fuel + 1, cur_id, acc =>
    match succs g cur_id with
    | [] => some (Except.ok (finishAcc acc))
    | nxt :: _ =>
      match projState g nxt attribute_list with
      | Except.error e => some (Except.error e)
      | Except.ok st =>
        if acc.cur.node_state = st then
          match (if trackD then (keyGet (attrsOf g nxt) dattr).map some
                 else Except.ok (none : Option Value)) with
          | Except.error e => some (Except.error e)
          | Except.ok dOpt =>
            abstractLoop g attribute_list trackO trackD oattr dattr fuel nxt
              { acc with cur :=
                  { acc.cur with
                    members := assocSet acc.cur.members nxt (attrsOf g nxt),
                    destruction_time :=
                      match dOpt with
                      | some v => some v
                      | none => acc.cur.destruction_time } }
        else
          match mkState g attribute_list trackO oattr (acc.cur.state_id + 1) nxt with
          | Except.error e => some (Except.error e)
          | Except.ok s' =>
            abstractLoop g attribute_list trackO trackD oattr dattr fuel nxt
              { done := acc.done ++ [acc.cur], cur := s',
                edges := acc.edges ++ [(acc.cur.state_id, acc.cur.state_id + 1)] }

/-- `abstract_asexual_lineage(lineage, attribute_list, origin_time_attr,
destruction_time_attr)`. -/
def abstract_asexual_lineage (fuel : Nat) (g : Graph)
    (attribute_list : List String) (origin_time_attr destruction_time_attr : String) :
    Option (Except Err AbstractLineage) :=
  match is_asexual_lineage fuel g with
  | none => none
  | some false => some (Except.error Err.notAsexualLineage)
  | some true =>
    if ! all_taxa_have_attributes g attribute_list then
      some (Except.error Err.missingAttributes)
    else if attribute_list.contains ("node_state") then
      some (Except.error (Err.reservedAttribute ("node_state")))
    else if attribute_list.contains ("members") then
      some (Except.error (Err.reservedAttribute ("members")))
    else if attribute_list.contains ("state_id") then
      some (Except.error (Err.reservedAttribute ("state_id")))
    else
      let trackO := all_taxa_have_attribute g origin_time_attr
      let trackD := all_taxa_have_attribute g destruction_time_attr
      match get_root_ids g with
      | [] => some (Except.error Err.indexError)
      | r :: _ =>
        match (do
            let s0 ← mkState g attribute_list trackO origin_time_attr 0 r
            if trackD then do
              let v ← keyGet (attrsOf g r) destruction_time_attr
              Except.ok { s0 with destruction_time := some v }
            else Except.ok s0) with
        | Except.error e => some (Except.error e)
        | Except.ok s0 =>
          abstractLoop g attribute_list trackO trackD origin_time_attr
            destruction_time_attr fuel r { done := [], cur := s0, edges := [] }

/-! ## Concrete example graphs used by the claim theorems -/

/-- One taxon, already destroyed at (numeric) time 5. -/
def gNum : Graph := ⟨[("a", [("destruction_time", Value.int 5)])], []⟩

/-- Two taxa with string-valued destruction data: one carries the sentinel,
one a digit-string destruction time. -/
def gStr : Graph :=
  ⟨[("a", [("destruction_time", Value.str ("none"))]),
    ("b", [("destruction_time", Value.str ("5"))])], []⟩

/-- One taxon whose destruction data lives under the attribute `"death"`. -/
def gDeath : Graph := ⟨[("a", [("death", Value.str ("none"))])], []⟩

/-- A two-taxon chain with differing `trait` values, with origin and
destruction times tracked on every taxon. -/
def gTwoChain : Graph :=
  ⟨[("t0", [("trait", Value.str ("x")), ("destruction_time", Value.int 1),
            ("origin_time", Value.int 0)]),
    ("t1", [("trait", Value.str ("y")), ("destruction_time", Value.int 2),
            ("origin_time", Value.int 1)])],
   [("t0", "t1")]⟩

/-- A six-taxon chain whose `trait` values are x, x, y, y, y, z. -/
def gSixChain : Graph :=
  ⟨[("t0", [("trait", Value.str ("x"))]),
    ("t1", [("trait", Value.str ("x"))]),
    ("t2", [("trait", Value.str ("y"))]),
    ("t3", [("trait", Value.str ("y"))]),
    ("t4", [("trait", Value.str ("y"))]),
    ("t5", [("trait", Value.str ("z"))])],
   [("t0", "t1"), ("t1", "t2"), ("t2", "t3"), ("t3", "t4"), ("t4", "t5")]⟩

/-- The asexual chain A→B→C→D. -/
def gABCD : Graph :=
  ⟨[("A", []), ("B", []), ("C", []), ("D", [])],
   [("A", "B"), ("B", "C"), ("C", "D")]⟩

/-! ## C1: the extant-taxa query at `time="present"` -/

/-- C1 counterexample: on a graph whose single taxon is already destroyed at
the orderable (numeric) time 5, `get_extant_taxa_ids` at `time="present"`
does not return the not-destroyed taxa — it raises a `TypeError`, because the
source evaluates `node["destruction_time"] > "present"`. -/
theorem C1_counterexample :
    get_extant_taxa_ids gNum (Value.str ("present")) (Value.str ("none"))
      ("destruction_time") ("origin_time") = Except.error Err.typeError := by
  rfl

/-- The filtering step behind `C1_amended_extant_present`. -/
theorem extantIdsAux_present (ndv : Value) (L : List (String × AttrMap))
    (h : ∀ p ∈ L, ∃ v, assocLookup p.2 ("destruction_time") = some v ∧
        (v = ndv ∨ pyGt v (Value.str ("present")) = Except.ok false)) :
    extantIdsAux (Value.str ("present")) ndv ("destruction_time") ("origin_time") L
      = Except.ok ((L.filter
          (fun p => assocLookup p.2 ("destruction_time") == some ndv)).map Prod.fst) := by
  induction L with
  | nil => rfl
  | cons p rest ih =>
    obtain ⟨v, hv, hcase⟩ := h p (List.mem_cons_self p rest)
    have hrest := ih (fun q hq => h q (List.mem_cons_of_mem p hq))
    by_cases hvn : v = ndv
    · have hta : taxon_is_alive p.2 (Value.str ("present")) ndv
          ("destruction_time") ("origin_time") = Except.ok true := by
        simp [taxon_is_alive, keyGet, hv, hvn, bind, Except.bind, pure, Except.pure]
      simp [extantIdsAux, hta, hrest, List.filter_cons, hv, hvn, bind, Except.bind, pure,
        Except.pure]
    · have hgt : pyGt v (Value.str ("present")) = Except.ok false := by
        rcases hcase with h1 | h1
        · exact absurd h1 hvn
        · exact h1
      have hta : taxon_is_alive p.2 (Value.str ("present")) ndv
          ("destruction_time") ("origin_time") = Except.ok false := by
        simp [taxon_is_alive, keyGet, hv, hvn, hgt, bind, Except.bind, pure, Except.pure]
      have hne : (assocLookup p.2 ("destruction_time") == some ndv) = false := by
        rw [hv]
        simp [hvn]
      simp [extantIdsAux, hta, hrest, List.filter_cons, hne, bind, Except.bind, pure,
        Except.pure]

/-- C1 (amended): at `time="present"` with the default destruction attribute,
`get_extant_taxa_ids` returns exactly the taxa whose `destruction_time` equals
`not_destroyed_value`, without raising, *provided* every non-sentinel
destruction value compares under Python `>` as not-greater-than the string
`"present"` (e.g. all destruction data are strings).  Without that proviso the
call raises a `TypeError` (see `C1_counterexample`). -/
theorem C1_amended_extant_present (g : Graph) (ndv : Value)
    (h : ∀ p ∈ g.nodes, ∃ v, assocLookup p.2 ("destruction_time") = some v ∧
        (v = ndv ∨ pyGt v (Value.str ("present")) = Except.ok false)) :
    get_extant_taxa_ids g (Value.str ("present")) ndv
        ("destruction_time") ("origin_time")
      = Except.ok ((g.nodes.filter
          (fun p => assocLookup p.2 ("destruction_time") == some ndv)).map Prod.fst) := by
  have hall : all_taxa_have_attribute g ("destruction_time") = true := by
    unfold all_taxa_have_attribute
    rw [List.all_eq_true]
    intro p hp
    obtain ⟨v, hv, _⟩ := h p hp
    unfold assocHas
    rw [hv]
    rfl
  have hval : validate_destruction_time g ("destruction_time") = Except.ok () := by
    simp [validate_destruction_time, hall]
  simp only [get_extant_taxa_ids, hval, bind, Except.bind, if_pos rfl, pure]
  exact extantIdsAux_present ndv g.nodes h

/-- C1 witness: on `gStr` the hypothesis of `C1_amended_extant_present` holds
and the query returns exactly the sentinel-carrying taxon. -/
theorem C1_witness :
    (∀ p ∈ gStr.nodes, ∃ v, assocLookup p.2 ("destruction_time") = some v ∧
        (v = Value.str ("none") ∨ pyGt v (Value.str ("present")) = Except.ok false)) ∧
    get_extant_taxa_ids gStr (Value.str ("present")) (Value.str ("none"))
        ("destruction_time") ("origin_time")
      = Except.ok ((gStr.nodes.filter
          (fun p => assocLookup p.2 ("destruction_time") == some (Value.str ("none")))).map
            Prod.fst) := by
  have h : ∀ p ∈ gStr.nodes, ∃ v, assocLookup p.2 ("destruction_time") = some v ∧
      (v = Value.str ("none") ∨ pyGt v (Value.str ("present")) = Except.ok false) := by
    intro p hp
    simp only [gStr, List.mem_cons, List.mem_singleton] at hp
    rcases hp with rfl | hp
    · exact ⟨Value.str ("none"), rfl, Or.inl rfl⟩
    · rcases hp with rfl | hp
      · exact ⟨Value.str ("5"), rfl, Or.inr rfl⟩
      · cases hp
  exact ⟨h, C1_amended_extant_present gStr (Value.str ("none")) h⟩

/-! ## C2: which attribute the sentinel comparison reads -/

/-- C2: the aliveness test does *not* read the caller-supplied
`destruction_attribute` for the sentinel comparison.  With
`destruction_attribute="death"` on a node whose `"death"` value is the
sentinel (and which the caller therefore expects to be alive), both
`taxon_is_alive` and `get_extant_taxa_ids` consult the unrelated hard-coded
key `"destruction_time"` and raise `KeyError("destruction_time")`. -/
theorem C2_sentinel_reads_fixed_attribute :
    taxon_is_alive [(("death" : String), Value.str ("none"))] (Value.str ("present"))
        (Value.str ("none")) ("death") ("origin_time")
      = Except.error (Err.keyError ("destruction_time")) ∧
    get_extant_taxa_ids gDeath (Value.str ("present")) (Value.str ("none"))
        ("death") ("origin_time")
      = Except.error (Err.keyError ("destruction_time")) := by
  exact ⟨rfl, rfl⟩

/-! ## C3: `destruction_time` on freshly opened states -/

/-- C3: on the two-state chain `gTwoChain`, destruction times are tracked on
every taxon, yet the abstract lineage's state 1 — populated by the
new-state branch — carries no `destruction_time` at all, while state 0 does.
The new-state branch (source lines 352-365) sets `state_id`, `node_state`,
`origin_time`, the attribute values and `members`, but omits
`destruction_time`, so it is *not* populated as the root state was. -/
theorem C3_new_state_lacks_destruction_time :
    all_taxa_have_attribute gTwoChain ("destruction_time") = true ∧
    (abstract_asexual_lineage 3 gTwoChain [("trait")] ("origin_time")
        ("destruction_time")).map
        (Except.map (fun L => L.states.map AState.destruction_time))
      = some (Except.ok [some (Value.int 1), none]) := by
  exact ⟨rfl, rfl⟩

/-! ## C5: the six-chain abstraction example -/

/-- C5: abstracting the chain with `trait` values x, x, y, y, y, z over
`attribute_list=["trait"]` yields exactly 3 states with member counts 2, 3, 1,
state ids 0, 1, 2, and exactly the edges 0→1 and 1→2. -/
theorem C5_abstraction_example :
    (abstract_asexual_lineage 7 gSixChain [("trait")] ("origin_time")
        ("destruction_time")).map
        (Except.map (fun L =>
          (L.states.length, L.states.map (fun s => s.members.length),
           L.states.map AState.state_id, L.edges)))
      = some (Except.ok (3, [2, 3, 1], [0, 1, 2], [(0, 1), (1, 2)])) := by
  rfl

/-! ## C7: `get_roots` / `get_leaf_taxa` id-annotation side effect -/

/-- Setting a key leaves lookups of all other keys unchanged and makes the set
key visible. -/
theorem assocLookup_assocSet {β : Type} (m : List (String × β)) (k k' : String) (v : β) :
    assocLookup (assocSet m k v) k' = if k' = k then some v else assocLookup m k' := by
  induction m with
  | nil =>
    simp only [assocSet, assocLookup]
    by_cases h : k = k'
    · rw [if_pos h, if_pos h.symm]
    · rw [if_neg h, if_neg (Ne.symm h)]
  | cons p rest ih =>
    simp only [assocSet]
    by_cases h1 : p.1 = k
    · rw [if_pos h1]
      simp only [assocLookup]
      by_cases h2 : k = k'
      · rw [if_pos h2, if_pos h2.symm]
      · rw [if_neg h2, if_neg (Ne.symm h2),
          if_neg (show ¬ p.1 = k' from h1 ▸ h2)]
    · rw [if_neg h1]
      simp only [assocLookup]
      by_cases h2 : p.1 = k'
      · have hk : ¬ k' = k := fun hh => h1 (h2.trans hh)
        rw [if_pos h2, if_neg hk, if_pos h2]
      · rw [if_neg h2, ih]
        by_cases h3 : k' = k
        · rw [if_pos h3, if_pos h3]
        · rw [if_neg h3, if_neg h3, if_neg h2]

/-- Mapping an id-preserving update across the node list keeps the id list. -/
theorem map_fst_if_annot (c : (String × AttrMap) → Bool)
    (f : (String × AttrMap) → AttrMap) (L : List (String × AttrMap)) :
    (L.map (fun p => if c p then (p.1, f p) else p)).map Prod.fst = L.map Prod.fst := by
  induction L with
  | nil => rfl
  | cons q t ih =>
    simp only [List.map_cons, ih, List.cons.injEq, and_true]
    split <;> rfl

/-- Projecting ids out of annotated pairs. -/
theorem map_fst_pair_annot (f : (String × AttrMap) → AttrMap)
    (L : List (String × AttrMap)) :
    (L.map (fun p => (p.1, f p))).map Prod.fst = L.map Prod.fst := by
  induction L with
  | nil => rfl
  | cons q t ih => simp only [List.map_cons, ih]

/-- A selected element's image lies in the conditionally mapped list. -/
theorem mem_map_if_true {α : Type} (c : α → Bool) (f : α → α) (L : List α)
    (x : α) (hx : x ∈ L) (hc : c x = true) :
    f x ∈ L.map (fun q => if c q then f q else q) := by
  refine List.mem_map.mpr ⟨x, hx, ?_⟩
  simp [hc]

/-- An unselected element survives the conditional map unchanged. -/
theorem mem_map_if_false {α : Type} (c : α → Bool) (f : α → α) (L : List α)
    (x : α) (hx : x ∈ L) (hc : c x = false) :
    x ∈ L.map (fun q => if c q then f q else q) := by
  refine List.mem_map.mpr ⟨x, hx, ?_⟩
  simp [hc]

/-- C7: `get_roots` and `get_leaf_taxa` return the graph's own attribute maps
with an `id` key inserted, mutating the source graph's node data exactly
there: the graph keeps its node ids and edges, every returned (root/leaf)
node's stored map becomes its old map with exactly the key `"id"` set to the
node's id (all other keys unchanged), the returned mapping contains exactly
those maps (aliasing), and all non-returned nodes' entries are unchanged. -/
theorem C7_id_annotation_mutation (g : Graph) (p : String × AttrMap)
    (hp : p ∈ g.nodes) :
    ((get_roots g).2.nodes.map Prod.fst = g.nodes.map Prod.fst ∧
     (get_roots g).2.edges = g.edges ∧
     (get_roots g).1.map Prod.fst = get_root_ids g ∧
     ((preds g p.1).length = 0 →
        (p.1, assocSet p.2 ("id") (Value.str p.1)) ∈ (get_roots g).1 ∧
        (p.1, assocSet p.2 ("id") (Value.str p.1)) ∈ (get_roots g).2.nodes ∧
        assocLookup (assocSet p.2 ("id") (Value.str p.1)) ("id") = some (Value.str p.1) ∧
        (∀ k, k ≠ ("id") →
          assocLookup (assocSet p.2 ("id") (Value.str p.1)) k = assocLookup p.2 k)) ∧
     ((preds g p.1).length ≠ 0 → p ∈ (get_roots g).2.nodes)) ∧
    ((get_leaf_taxa g).2.nodes.map Prod.fst = g.nodes.map Prod.fst ∧
     (get_leaf_taxa g).2.edges = g.edges ∧
     (get_leaf_taxa g).1.map Prod.fst = get_leaf_taxa_ids g ∧
     ((succs g p.1).length = 0 →
        (p.1, assocSet p.2 ("id") (Value.str p.1)) ∈ (get_leaf_taxa g).1 ∧
        (p.1, assocSet p.2 ("id") (Value.str p.1)) ∈ (get_leaf_taxa g).2.nodes ∧
        assocLookup (assocSet p.2 ("id") (Value.str p.1)) ("id") = some (Value.str p.1) ∧
        (∀ k, k ≠ ("id") →
          assocLookup (assocSet p.2 ("id") (Value.str p.1)) k = assocLookup p.2 k)) ∧
     ((succs g p.1).length ≠ 0 → p ∈ (get_leaf_taxa g).2.nodes)) := by
  have hlook : assocLookup (assocSet p.2 ("id") (Value.str p.1)) ("id")
      = some (Value.str p.1) := by
    rw [assocLookup_assocSet]
    simp
  have hkeep : ∀ k, k ≠ ("id") →
      assocLookup (assocSet p.2 ("id") (Value.str p.1)) k = assocLookup p.2 k := by
    intro k hk
    rw [assocLookup_assocSet]
    simp [hk]
  constructor
  · refine ⟨map_fst_if_annot _ _ _, rfl, map_fst_pair_annot _ _, ?_, ?_⟩
    · intro hroot
      have hc : decide ((preds g p.1).length = 0) = true := by simp [hroot]
      refine ⟨?_, ?_, hlook, hkeep⟩
      · exact List.mem_map_of_mem _ (List.mem_filter.mpr ⟨hp, hc⟩)
      · exact mem_map_if_true (fun q => decide ((preds g q.1).length = 0))
          (fun q => (q.1, assocSet q.2 ("id") (Value.str q.1))) g.nodes p hp hc
    · intro hroot
      have hc : decide ((preds g p.1).length = 0) = false := by simp [hroot]
      exact mem_map_if_false (fun q => decide ((preds g q.1).length = 0))
        (fun q => (q.1, assocSet q.2 ("id") (Value.str q.1))) g.nodes p hp hc
  · refine ⟨map_fst_if_annot _ _ _, rfl, map_fst_pair_annot _ _, ?_, ?_⟩
    · intro hleaf
      have hc : decide ((succs g p.1).length = 0) = true := by simp [hleaf]
      refine ⟨?_, ?_, hlook, hkeep⟩
      · exact List.mem_map_of_mem _ (List.mem_filter.mpr ⟨hp, hc⟩)
      · exact mem_map_if_true (fun q => decide ((succs g q.1).length = 0))
          (fun q => (q.1, assocSet q.2 ("id") (Value.str q.1))) g.nodes p hp hc
    · intro hleaf
      have hc : decide ((succs g p.1).length = 0) = false := by simp [hleaf]
      exact mem_map_if_false (fun q => decide ((succs g q.1).length = 0))
        (fun q => (q.1, assocSet q.2 ("id") (Value.str q.1))) g.nodes p hp hc

/-- C7 witness: instantiated at node `A` of the chain A→B→C→D. -/
theorem C7_witness :
    (("A", ([] : AttrMap)) ∈ gABCD.nodes) ∧
    ((get_roots gABCD).2.nodes.map Prod.fst = gABCD.nodes.map Prod.fst ∧
     (get_roots gABCD).2.edges = gABCD.edges ∧
     (get_roots gABCD).1.map Prod.fst = get_root_ids gABCD ∧
     ((preds gABCD ("A")).length = 0 →
        (("A" : String), assocSet ([] : AttrMap) ("id") (Value.str ("A"))) ∈ (get_roots gABCD).1 ∧
        (("A" : String), assocSet ([] : AttrMap) ("id") (Value.str ("A"))) ∈ (get_roots gABCD).2.nodes ∧
        assocLookup (assocSet ([] : AttrMap) ("id") (Value.str ("A"))) ("id")
          = some (Value.str ("A")) ∧
        (∀ k, k ≠ ("id") →
          assocLookup (assocSet ([] : AttrMap) ("id") (Value.str ("A"))) k
            = assocLookup ([] : AttrMap) k)) ∧
     ((preds gABCD ("A")).length ≠ 0 → ("A", ([] : AttrMap)) ∈ (get_roots gABCD).2.nodes)) ∧
    ((get_leaf_taxa gABCD).2.nodes.map Prod.fst = gABCD.nodes.map Prod.fst ∧
     (get_leaf_taxa gABCD).2.edges = gABCD.edges ∧
     (get_leaf_taxa gABCD).1.map Prod.fst = get_leaf_taxa_ids gABCD ∧
     ((succs gABCD ("A")).length = 0 →
        (("A" : String), assocSet ([] : AttrMap) ("id") (Value.str ("A"))) ∈ (get_leaf_taxa gABCD).1 ∧
        (("A" : String), assocSet ([] : AttrMap) ("id") (Value.str ("A"))) ∈ (get_leaf_taxa gABCD).2.nodes ∧
        assocLookup (assocSet ([] : AttrMap) ("id") (Value.str ("A"))) ("id")
          = some (Value.str ("A")) ∧
        (∀ k, k ≠ ("id") →
          assocLookup (assocSet ([] : AttrMap) ("id") (Value.str ("A"))) k
            = assocLookup ([] : AttrMap) k)) ∧
     ((succs gABCD ("A")).length ≠ 0 → ("A", ([] : AttrMap)) ∈ (get_leaf_taxa gABCD).2.nodes)) := by
  have hp : ("A", ([] : AttrMap)) ∈ gABCD.nodes := by
    simp [gABCD]
  exact ⟨hp, C7_id_annotation_mutation gABCD ("A", ([] : AttrMap)) hp⟩

/-! ## C8: `has_single_root` vs `get_num_independent_phylogenies` -/

theorem contains_iff (l : List String) (a : String) : l.contains a = true ↔ a ∈ l := by
  simp

/-- A nodup list included in another list is no longer than it. -/
theorem nodup_subset_length_le {A B : List String} (h : A.Nodup) (hs : A ⊆ B) :
    A.length ≤ B.length := by
  calc A.length = A.toFinset.card := (List.toFinset_card_of_nodup h).symm
    _ ≤ B.toFinset.card :=
        Finset.card_le_card (fun x hx => List.mem_toFinset.mpr (hs (List.mem_toFinset.mp hx)))
    _ ≤ B.length := B.toFinset_card_le

theorem subset_stepSet (g : Graph) (s : List String) : s ⊆ stepSet g s :=
  List.subset_append_left _ _

theorem subset_iterSet (g : Graph) (n : Nat) (s : List String) : s ⊆ iterSet g n s := by
  induction n with
  | zero => exact fun x hx => hx
  | succ n ih => exact fun x hx => subset_stepSet g _ (ih hx)

theorem stepSet_nodup (g : Graph) (s : List String) (h : s.Nodup) :
    (stepSet g s).Nodup := by
  refine h.append ((List.nodup_dedup _).filter _) ?_
  intro x hx hmem
  have := (List.mem_filter.mp hmem).2
  simp only [Bool.and_eq_true, Bool.not_eq_true'] at this
  have hcon : s.contains x = false := this.1
  rw [← Bool.not_eq_true, contains_iff] at hcon
  exact hcon hx

theorem stepSet_subset_nodeIds (g : Graph) (s : List String)
    (h : s ⊆ (nodeIds g).dedup) : stepSet g s ⊆ (nodeIds g).dedup := by
  intro x hx
  rcases List.mem_append.mp hx with hx | hx
  · exact h hx
  · exact (List.mem_filter.mp hx).1

theorem iterSet_nodup (g : Graph) (n : Nat) (s : List String) (h : s.Nodup) :
    (iterSet g n s).Nodup := by
  induction n with
  | zero => exact h
  | succ n ih => exact stepSet_nodup g _ ih

theorem iterSet_subset_nodeIds (g : Graph) (n : Nat) (s : List String)
    (h : s ⊆ (nodeIds g).dedup) : iterSet g n s ⊆ (nodeIds g).dedup := by
  induction n with
  | zero => exact h
  | succ n ih => exact stepSet_subset_nodeIds g _ ih

/-- A set closed under one round of undirected expansion. -/
def uClosed (g : Graph) (C : List String) : Prop := stepSet g C = C

theorem iterSet_of_uClosed (g : Graph) (n : Nat) (s : List String)
    (h : uClosed g s) : iterSet g n s = s := by
  induction n with
  | zero => rfl
  | succ n ih => simp only [iterSet, ih]; exact h

theorem append_ne_length {α : Type} (s t : List α) (h : s ++ t ≠ s) :
    s.length + 1 ≤ (s ++ t).length := by
  cases t with
  | nil => exact absurd (List.append_nil s) h
  | cons y ys =>
    rw [List.length_append, List.length_cons]
    omega

theorem stepSet_length_lt (g : Graph) (s : List String) (h : stepSet g s ≠ s) :
    s.length + 1 ≤ (stepSet g s).length :=
  append_ne_length s _ h

/-- After as many rounds as there are nodes, the closure of a nonempty set of
nodes is closed. -/
theorem iterSet_closed (g : Graph) (s : List String) (hnd : s.Nodup)
    (hsub : s ⊆ (nodeIds g).dedup) (hne : s ≠ []) :
    uClosed g (iterSet g (nodeIds g).length s) := by
  have hlen : ∀ n : Nat, uClosed g (iterSet g n s) ∨
      n + s.length ≤ (iterSet g n s).length := by
    intro n
    induction n with
    | zero =>
      right
      show 0 + s.length ≤ s.length
      omega
    | succ n ih =>
      rcases ih with hcl | hlt
      · left
        show uClosed g (stepSet g (iterSet g n s))
        rw [hcl]
        exact hcl
      · by_cases hcl : uClosed g (iterSet g n s)
        · left
          show uClosed g (stepSet g (iterSet g n s))
          rw [hcl]
          exact hcl
        · right
          have := stepSet_length_lt g (iterSet g n s) hcl
          show n + 1 + s.length ≤ (stepSet g (iterSet g n s)).length
          omega
  rcases hlen (nodeIds g).length with hcl | hlt
  · exact hcl
  · exfalso
    have h1 : (iterSet g (nodeIds g).length s).length ≤ (nodeIds g).dedup.length :=
      nodup_subset_length_le (iterSet_nodup g _ s hnd) (iterSet_subset_nodeIds g _ s hsub)
    have h2 : (nodeIds g).dedup.length ≤ (nodeIds g).length :=
      (nodeIds g).dedup_sublist.length_le
    have h3 : 1 ≤ s.length := by
      cases s with
      | nil => exact absurd rfl hne
      | cons a t => simp
    omega

theorem stepSet_subset_closed (g : Graph) (s C : List String) (hs : s ⊆ C)
    (hC : uClosed g C) : stepSet g s ⊆ C := by
  intro x hx
  rcases List.mem_append.mp hx with hx | hx
  · exact hs hx
  · rcases List.mem_filter.mp hx with ⟨hxid, hcond⟩
    simp only [Bool.and_eq_true, List.any_eq_true] at hcond
    rcases hcond with ⟨hnotin, y, hy, hadj⟩
    by_cases hxC : x ∈ C
    · exact hxC
    · have : x ∈ stepSet g C := by
        refine List.mem_append.mpr (Or.inr (List.mem_filter.mpr ⟨hxid, ?_⟩))
        simp only [Bool.and_eq_true, List.any_eq_true]
        refine ⟨?_, y, hs hy, hadj⟩
        rw [Bool.not_eq_true', ← Bool.not_eq_true, contains_iff]
        exact hxC
      rw [hC] at this
      exact this

theorem iterSet_subset_closed (g : Graph) (n : Nat) (s C : List String)
    (hs : s ⊆ C) (hC : uClosed g C) : iterSet g n s ⊆ C := by
  induction n with
  | zero => exact hs
  | succ n ih => exact stepSet_subset_closed g _ C ih hC

theorem uReach_refl (g : Graph) (a : String) : uReach g a a = true := by
  unfold uReach
  rw [contains_iff]
  exact subset_iterSet g _ [a] (List.mem_singleton_self a)

theorem uReach_trans (g : Graph) (a b c : String) (ha : a ∈ nodeIds g)
    (hab : uReach g a b = true) (hbc : uReach g b c = true) :
    uReach g a c = true := by
  unfold uReach at *
  rw [contains_iff] at *
  have hClosed : uClosed g (iterSet g (nodeIds g).length [a]) := by
    refine iterSet_closed g [a] (List.nodup_singleton a) ?_ (by simp)
    intro x hx
    rw [List.mem_singleton] at hx
    subst hx
    exact List.mem_dedup.mpr ha
  have hsub : [b] ⊆ iterSet g (nodeIds g).length [a] := by
    intro x hx
    rw [List.mem_singleton] at hx
    subst hx
    exact hab
  exact iterSet_subset_closed g _ [b] _ hsub hClosed hbc

/-- If the start is already connected to everything in `seen`, and all later
ids are connected to it, the representative scan returns nothing new. -/
theorem repsAux_eq_nil (g : Graph) (x : String) :
    ∀ (xs seen : List String), x ∈ seen → (∀ y ∈ xs, uReach g x y = true) →
      repsAux g xs seen = [] := by
  intro xs
  induction xs with
  | nil => intro seen _ _; rfl
  | cons y ys ih =>
    intro seen hx hall
    have hany : seen.any (fun j => uReach g j y) = true :=
      List.any_eq_true.mpr ⟨x, hx, hall y (List.mem_cons_self y ys)⟩
    simp only [repsAux, hany, if_true]
    exact ih (seen ++ [y]) (List.mem_append.mpr (Or.inl hx))
      (fun z hz => hall z (List.mem_cons_of_mem y hz))

/-- Conversely, an empty representative scan means everything was connected to
the start. -/
theorem repsAux_nil_reach (g : Graph) (x : String) (hx : x ∈ nodeIds g) :
    ∀ (xs seen : List String), (∀ j ∈ seen, uReach g x j = true) →
      repsAux g xs seen = [] → ∀ y ∈ xs, uReach g x y = true := by
  intro xs
  induction xs with
  | nil => intro seen _ _ y hy; cases hy
  | cons z zs ih =>
    intro seen hseen hnil y hy
    by_cases hany : seen.any (fun j => uReach g j z) = true
    · have hz : uReach g x z = true := by
        rcases List.any_eq_true.mp hany with ⟨j, hj, hreach⟩
        exact uReach_trans g x j z hx (hseen j hj) hreach
      rcases List.mem_cons.mp hy with rfl | hy
      · exact hz
      · simp only [repsAux, hany, if_true] at hnil
        refine ih (seen ++ [z]) ?_ hnil y hy
        intro j hj
        rcases List.mem_append.mp hj with hj | hj
        · exact hseen j hj
        · rw [List.mem_singleton] at hj
          subst hj
          exact hz
    · rw [Bool.not_eq_true] at hany
      simp only [repsAux, hany, Bool.false_eq_true, if_false] at hnil
      cases hnil

/-- C8: `has_single_root` answers `True` exactly when
`get_num_independent_phylogenies` answers 1; in particular on the empty graph
both are defined and disagree with the claim nowhere — `has_single_root` is
`False` and the component count is 0. -/
theorem C8_single_root_iff_one_component (g : Graph) :
    has_single_root g = true ↔ get_num_independent_phylogenies g = 1 := by
  unfold has_single_root is_weakly_connected get_num_independent_phylogenies
    number_weakly_connected_components
  rcases hnodes : g.nodes with _ | ⟨p, rest⟩
  · constructor
    · intro h
      cases h
    · intro h
      exfalso
      have : nodeIds g = [] := by unfold nodeIds; rw [hnodes]; rfl
      rw [this] at h
      simp [repsAux] at h
  · have hids : nodeIds g = p.1 :: rest.map Prod.fst := by
      unfold nodeIds
      rw [hnodes]
      rfl
    have hxmem : p.1 ∈ nodeIds g := by rw [hids]; exact List.mem_cons_self _ _
    rw [hids]
    have hhead : repsAux g (p.1 :: rest.map Prod.fst) [] =
        p.1 :: repsAux g (rest.map Prod.fst) [p.1] := by
      simp [repsAux]
    rw [hhead]
    constructor
    · intro hall
      rw [List.all_eq_true] at hall
      have hreach : ∀ y ∈ rest.map Prod.fst, uReach g p.1 y = true := by
        intro y hy
        rcases List.mem_map.mp hy with ⟨q, hq, rfl⟩
        exact hall q (List.mem_cons_of_mem p hq)
      rw [List.length_cons, repsAux_eq_nil g p.1 (rest.map Prod.fst) [p.1]
        (List.mem_singleton_self _) hreach]
      rfl
    · intro hlen
      rw [List.length_cons] at hlen
      have hnil : repsAux g (rest.map Prod.fst) [p.1] = [] :=
        List.length_eq_zero.mp (by omega)
      have hreach := repsAux_nil_reach g p.1 hxmem (rest.map Prod.fst) [p.1]
        (fun j hj => by rw [List.mem_singleton] at hj; subst hj; exact uReach_refl g p.1)
        hnil
      rw [List.all_eq_true]
      intro q hq
      rcases List.mem_cons.mp hq with rfl | hq
      · exact uReach_refl g q.1
      · exact hreach q.1 (List.mem_map_of_mem Prod.fst hq)

/-! ## Well-formedness, acyclicity, and edge characterisations -/

/-- The edge relation of a graph. -/
def Adj (g : Graph) (a b : String) : Prop := (a, b) ∈ g.edges

/-- What `networkx` guarantees for any `DiGraph`: node ids are unique, there
are no duplicate edges, and every edge endpoint is a node. -/
def Wf (g : Graph) : Prop :=
  (g.nodes.map Prod.fst).Nodup ∧ g.edges.Nodup ∧
  ∀ e ∈ g.edges, e.1 ∈ nodeIds g ∧ e.2 ∈ nodeIds g

/-- The acyclicity the spec assumes of every phylogeny. -/
def Acyclic (g : Graph) : Prop := ∀ i, ¬ Relation.TransGen (Adj g) i i

/-- A rank function increasing along edges witnesses acyclicity (used to
discharge `Acyclic` on concrete graphs). -/
theorem acyclic_of_rank (g : Graph) (f : String → Nat)
    (hf : ∀ e ∈ g.edges, f e.1 < f e.2) : Acyclic g := by
  intro i hi
  have mono : ∀ a b, Relation.TransGen (Adj g) a b → f a < f b := by
    intro a b h
    induction h with
    | single h => exact hf _ h
    | tail _ h2 ih => exact lt_trans ih (hf _ h2)
  exact lt_irrefl (f i) (mono i i hi)

theorem mem_succs (g : Graph) (a b : String) : b ∈ succs g a ↔ (a, b) ∈ g.edges := by
  unfold succs
  constructor
  · intro h
    rcases List.mem_map.mp h with ⟨e, he, rfl⟩
    rcases List.mem_filter.mp he with ⟨hmem, hcond⟩
    have he1 : e.1 = a := by simpa using hcond
    rw [← he1]
    exact hmem
  · intro h
    exact List.mem_map.mpr ⟨(a, b), List.mem_filter.mpr ⟨h, by simp⟩, rfl⟩

theorem mem_preds (g : Graph) (a b : String) : a ∈ preds g b ↔ (a, b) ∈ g.edges := by
  unfold preds
  constructor
  · intro h
    rcases List.mem_map.mp h with ⟨e, he, rfl⟩
    rcases List.mem_filter.mp he with ⟨hmem, hcond⟩
    have he2 : e.2 = b := by simpa using hcond
    rw [← he2]
    exact hmem
  · intro h
    exact List.mem_map.mpr ⟨(a, b), List.mem_filter.mpr ⟨h, by simp⟩, rfl⟩

theorem get_root_ids_subset (g : Graph) : get_root_ids g ⊆ nodeIds g := by
  intro x hx
  rcases List.mem_map.mp hx with ⟨p, hp, rfl⟩
  exact List.mem_map_of_mem _ (List.mem_filter.mp hp).1

/-! ## C9: the graph walks terminate on acyclic graphs -/

/-- The forward walk of `is_asexual_lineage` finishes within as many steps as
there are nodes: each visited node is fresh (else there would be a cycle), so
the distinct visited nodes are bounded by the node count. -/
theorem lineageCheckLoop_isSome (g : Graph) (hwf : Wf g) (hac : Acyclic g) :
    ∀ (k : Nat) (u : String) (D : List String), u ∈ nodeIds g → D.Nodup →
      (∀ d ∈ D, d ∈ nodeIds g) → (∀ d ∈ D, Relation.TransGen (Adj g) d u) →
      (nodeIds g).length ≤ D.length + k →
      (lineageCheckLoop g k u).isSome = true := by
  intro k
  induction k with
  | zero =>
    intro u D hu hnd hDin hDtg hb
    exfalso
    have hun : u ∉ D := fun hu' => hac u (hDtg u hu')
    have hnodup : (u :: D).Nodup := List.nodup_cons.mpr ⟨hun, hnd⟩
    have hsub : (u :: D) ⊆ nodeIds g := by
      intro x hx
      rcases List.mem_cons.mp hx with rfl | hx
      · exact hu
      · exact hDin x hx
    have := nodup_subset_length_le hnodup hsub
    rw [List.length_cons] at this
    omega
  | succ k ih =>
    intro u D hu hnd hDin hDtg hb
    rcases hs : succs g u with _ | ⟨j, rest⟩
    · simp [lineageCheckLoop, hs]
    · rcases rest with _ | ⟨j2, rest2⟩
      · have hedge : (u, j) ∈ g.edges :=
          (mem_succs g u j).mp (hs ▸ List.mem_cons_self j [])
        have hj : j ∈ nodeIds g := (hwf.2.2 _ hedge).2
        have hun : u ∉ D := fun hu' => hac u (hDtg u hu')
        simp only [lineageCheckLoop, hs]
        refine ih j (u :: D) hj (List.nodup_cons.mpr ⟨hun, hnd⟩) ?_ ?_ ?_
        · intro d hd
          rcases List.mem_cons.mp hd with rfl | hd
          · exact hu
          · exact hDin d hd
        · intro d hd
          rcases List.mem_cons.mp hd with rfl | hd
          · exact Relation.TransGen.single hedge
          · exact (hDtg d hd).tail hedge
        · rw [List.length_cons]
          omega
      · simp [lineageCheckLoop, hs]

/-- The backward walk of `extract_asexual_lineage` finishes within as many
steps as there are nodes. -/
theorem backWalkF_isSome (g : Graph) (hwf : Wf g) (hac : Acyclic g) :
    ∀ (k : Nat) (u : String) (D : List String), u ∈ nodeIds g → D.Nodup →
      (∀ d ∈ D, d ∈ nodeIds g) → (∀ d ∈ D, Relation.TransGen (Adj g) u d) →
      (nodeIds g).length ≤ D.length + k →
      (backWalkF g k u).isSome = true := by
  intro k
  induction k with
  | zero =>
    intro u D hu hnd hDin hDtg hb
    exfalso
    have hun : u ∉ D := fun hu' => hac u (hDtg u hu')
    have hnodup : (u :: D).Nodup := List.nodup_cons.mpr ⟨hun, hnd⟩
    have hsub : (u :: D) ⊆ nodeIds g := by
      intro x hx
      rcases List.mem_cons.mp hx with rfl | hx
      · exact hu
      · exact hDin x hx
    have := nodup_subset_length_le hnodup hsub
    rw [List.length_cons] at this
    omega
  | succ k ih =>
    intro u D hu hnd hDin hDtg hb
    rcases hp : preds g u with _ | ⟨p, rest⟩
    · simp [backWalkF, hp]
    · have hedge : (p, u) ∈ g.edges :=
        (mem_preds g p u).mp (hp ▸ List.mem_cons_self p rest)
      have hpin : p ∈ nodeIds g := (hwf.2.2 _ hedge).1
      have hun : u ∉ D := fun hu' => hac u (hDtg u hu')
      simp only [backWalkF, hp]
      have hrec : (backWalkF g k p).isSome = true := by
        refine ih p (u :: D) hpin (List.nodup_cons.mpr ⟨hun, hnd⟩) ?_ ?_ ?_
        · intro d hd
          rcases List.mem_cons.mp hd with rfl | hd
          · exact hu
          · exact hDin d hd
        · intro d hd
          rcases List.mem_cons.mp hd with rfl | hd
          · exact Relation.TransGen.single hedge
          · exact Relation.TransGen.head hedge (hDtg d hd)
        · rw [List.length_cons]
          omega
      rcases Option.isSome_iff_exists.mp hrec with ⟨l, hl⟩
      rw [hl]
      rfl

/-- The forward walk of `abstract_asexual_lineage` finishes within as many
steps as there are nodes (or exits early through an exception). -/
theorem abstractLoop_isSome (g : Graph) (hwf : Wf g) (hac : Acyclic g)
    (attribute_list : List String) (trackO trackD : Bool) (oattr dattr : String) :
    ∀ (k : Nat) (u : String) (D : List String) (acc : AbsAcc), u ∈ nodeIds g →
      D.Nodup → (∀ d ∈ D, d ∈ nodeIds g) →
      (∀ d ∈ D, Relation.TransGen (Adj g) d u) →
      (nodeIds g).length ≤ D.length + k →
      (abstractLoop g attribute_list trackO trackD oattr dattr k u acc).isSome = true := by
  intro k
  induction k with
  | zero =>
    intro u D acc hu hnd hDin hDtg hb
    exfalso
    have hun : u ∉ D := fun hu' => hac u (hDtg u hu')
    have hnodup : (u :: D).Nodup := List.nodup_cons.mpr ⟨hun, hnd⟩
    have hsub : (u :: D) ⊆ nodeIds g := by
      intro x hx
      rcases List.mem_cons.mp hx with rfl | hx
      · exact hu
      · exact hDin x hx
    have := nodup_subset_length_le hnodup hsub
    rw [List.length_cons] at this
    omega
  | succ k ih =>
    intro u D acc hu hnd hDin hDtg hb
    rcases hs : succs g u with _ | ⟨nxt, rest⟩
    · simp [abstractLoop, hs]
    · have hedge : (u, nxt) ∈ g.edges :=
        (mem_succs g u nxt).mp (hs ▸ List.mem_cons_self nxt rest)
      have hnin : nxt ∈ nodeIds g := (hwf.2.2 _ hedge).2
      have hun : u ∉ D := fun hu' => hac u (hDtg u hu')
      have hrec : ∀ acc' : AbsAcc,
          (abstractLoop g attribute_list trackO trackD oattr dattr k nxt acc').isSome
            = true := by
        intro acc'
        refine ih nxt (u :: D) acc' hnin (List.nodup_cons.mpr ⟨hun, hnd⟩) ?_ ?_ ?_
        · intro d hd
          rcases List.mem_cons.mp hd with rfl | hd
          · exact hu
          · exact hDin d hd
        · intro d hd
          rcases List.mem_cons.mp hd with rfl | hd
          · exact Relation.TransGen.single hedge
          · exact (hDtg d hd).tail hedge
        · rw [List.length_cons]
          omega
      simp only [abstractLoop, hs]
      split
      · rfl
      · split
        · split
          · rfl
          · exact hrec _
        · split
          · rfl
          · exact hrec _

/-- C9: on any well-formed acyclic graph, all the walk-based operations
terminate with fuel equal to the node count: the backward predecessor walk of
`extract_asexual_lineage` (from any node), the forward successor walk of
`is_asexual_lineage`, the full `extract_asexual_lineage`, and the full
`abstract_asexual_lineage` (for any attribute arguments). -/
theorem C9_traversals_terminate (g : Graph) (hwf : Wf g) (hac : Acyclic g) :
    (∀ t ∈ nodeIds g, (backWalkF g (nodeIds g).length t).isSome = true) ∧
    (is_asexual_lineage (nodeIds g).length g).isSome = true ∧
    (∀ t, (extract_asexual_lineage (nodeIds g).length g t).isSome = true) ∧
    (∀ (attribute_list : List String) (oattr dattr : String),
      (abstract_asexual_lineage (nodeIds g).length g attribute_list oattr dattr).isSome
        = true) := by
  have hback : ∀ t ∈ nodeIds g, (backWalkF g (nodeIds g).length t).isSome = true := by
    intro t ht
    exact backWalkF_isSome g hwf hac (nodeIds g).length t [] ht List.nodup_nil
      (fun d hd => absurd hd (List.not_mem_nil d))
      (fun d hd => absurd hd (List.not_mem_nil d)) (by simp)
  have hlin : (is_asexual_lineage (nodeIds g).length g).isSome = true := by
    unfold is_asexual_lineage
    rcases hr : get_root_ids g with _ | ⟨r, rest⟩
    · rfl
    · rcases rest with _ | ⟨r2, rest2⟩
      · have hrin : r ∈ nodeIds g :=
          get_root_ids_subset g (hr ▸ List.mem_cons_self r [])
        exact lineageCheckLoop_isSome g hwf hac (nodeIds g).length r [] hrin
          List.nodup_nil (fun d hd => absurd hd (List.not_mem_nil d))
          (fun d hd => absurd hd (List.not_mem_nil d)) (by simp)
      · rfl
  refine ⟨hback, hlin, ?_, ?_⟩
  · intro t
    unfold extract_asexual_lineage
    by_cases hmem : (nodeIds g).contains t = true
    · rw [hmem]
      by_cases hasex : is_asexual g = true
      · rw [hasex]
        have := hback t ((contains_iff _ _).mp hmem)
        rcases Option.isSome_iff_exists.mp this with ⟨l, hl⟩
        simp [hl]
      · rw [Bool.not_eq_true] at hasex
        rw [hasex]
        rfl
    · rw [Bool.not_eq_true] at hmem
      rw [hmem]
      rfl
  · intro attribute_list oattr dattr
    unfold abstract_asexual_lineage
    rcases Option.isSome_iff_exists.mp hlin with ⟨b, hb⟩
    cases b
    · simp [hb]
    · simp only [hb]
      split
      · rfl
      · split
        · rfl
        · split
          · rfl
          · split
            · rfl
            · split
              · rfl
              · rename_i r tail heq
                split
                · rfl
                · have hrin : r ∈ nodeIds g :=
                    get_root_ids_subset g (heq ▸ List.mem_cons_self r tail)
                  exact abstractLoop_isSome g hwf hac attribute_list
                    (all_taxa_have_attribute g oattr) (all_taxa_have_attribute g dattr)
                    oattr dattr (nodeIds g).length r [] _ hrin List.nodup_nil
                    (fun d hd => absurd hd (List.not_mem_nil d))
                    (fun d hd => absurd hd (List.not_mem_nil d)) (by simp)

/-- A rank function for the chain A→B→C→D. -/
def rankABCD : String → Nat :=
  fun s => if s = ("A") then 0 else if s = ("B") then 1 else if s = ("C") then 2 else 3

/-- C9 witness: the chain A→B→C→D is well formed and acyclic, and the
asexual-lineage check terminates on it with fuel 4. -/
theorem C9_witness :
    Wf gABCD ∧ Acyclic gABCD ∧
    (is_asexual_lineage (nodeIds gABCD).length gABCD).isSome = true := by
  have hwf : Wf gABCD := by
    refine ⟨by decide, by decide, by decide⟩
  have hac : Acyclic gABCD := acyclic_of_rank gABCD rankABCD (by decide)
  exact ⟨hwf, hac, (C9_traversals_terminate gABCD hwf hac).2.1⟩

/-! ## C6: behaviour of `extract_asexual_lineage` -/

/-- The backward walk described by the spec: from a taxon, through the unique
predecessor at each step, to a node with no predecessors. -/
inductive BChain (g : Graph) : String → List String → Prop
  | root (i : String) : preds g i = [] → BChain g i [i]
  | cons (i p : String) (l : List String) :
      preds g i = [p] → BChain g p l → BChain g i (i :: l)

theorem is_asexual_preds_le (g : Graph) (h : is_asexual g = true) :
    ∀ i ∈ nodeIds g, (preds g i).length ≤ 1 := by
  intro i hi
  rcases List.mem_map.mp hi with ⟨q, hq, rfl⟩
  have := List.all_eq_true.mp h q hq
  simp only [Bool.not_eq_true', decide_eq_false_iff_not, not_lt] at this
  exact this

/-- On an asexual graph, a successful backward walk is exactly a `BChain`. -/
theorem backWalkF_bchain (g : Graph) (hwf : Wf g) (hasex : is_asexual g = true) :
    ∀ (k : Nat) (u : String) (l : List String), u ∈ nodeIds g →
      backWalkF g k u = some l → BChain g u l := by
  intro k
  induction k with
  | zero =>
    intro u l hu h
    simp [backWalkF] at h
  | succ k ih =>
    intro u l hu h
    rcases hp : preds g u with _ | ⟨p, rest⟩
    · simp only [backWalkF, hp] at h
      injection h with h
      rw [← h]
      exact BChain.root u hp
    · have hlen := is_asexual_preds_le g hasex u hu
      rw [hp] at hlen
      rcases rest with _ | ⟨p2, rest2⟩
      · simp only [backWalkF, hp] at h
        rcases hw : backWalkF g k p with _ | l'
        · rw [hw] at h
          cases h
        · rw [hw] at h
          simp only [Option.map_some', Option.some.injEq] at h
          have hpin : p ∈ nodeIds g :=
            (hwf.2.2 _ ((mem_preds g p u).mp (hp ▸ List.mem_cons_self p []))).1
          rw [← h]
          exact BChain.cons u p l' hp (ih p l' hpin hw)
      · exfalso
        simp at hlen

/-- C6: `extract_asexual_lineage` raises on a missing taxon, raises on a
non-asexual graph, and otherwise returns the induced subgraph (an independent
copy) over exactly the ids visited by the backward unique-predecessor walk. -/
theorem C6_extract_lineage_behaviour (g : Graph) (t : String)
    (hwf : Wf g) (hac : Acyclic g) :
    ((nodeIds g).contains t = false →
      extract_asexual_lineage (nodeIds g).length g t
        = some (Except.error Err.notFound)) ∧
    ((nodeIds g).contains t = true → is_asexual g = false →
      extract_asexual_lineage (nodeIds g).length g t
        = some (Except.error Err.notAsexual)) ∧
    ((nodeIds g).contains t = true → is_asexual g = true →
      ∃ l, backWalkF g (nodeIds g).length t = some l ∧ BChain g t l ∧
        extract_asexual_lineage (nodeIds g).length g t
          = some (Except.ok (inducedSubgraph g l))) := by
  refine ⟨?_, ?_, ?_⟩
  · intro h
    have h' : t ∉ nodeIds g := by simpa using h
    simp [extract_asexual_lineage, h']
  · intro h1 h2
    have h1' : t ∈ nodeIds g := (contains_iff _ _).mp h1
    simp [extract_asexual_lineage, h1', h2]
  · intro h1 h2
    have ht : t ∈ nodeIds g := (contains_iff _ _).mp h1
    have hsome := backWalkF_isSome g hwf hac (nodeIds g).length t [] ht
      List.nodup_nil (fun d hd => absurd hd (List.not_mem_nil d))
      (fun d hd => absurd hd (List.not_mem_nil d)) (by simp)
    rcases Option.isSome_iff_exists.mp hsome with ⟨l, hl⟩
    refine ⟨l, hl, backWalkF_bchain g hwf h2 (nodeIds g).length t l ht hl, ?_⟩
    simp [extract_asexual_lineage, ht, h2, hl]

/-- C6 witness: on the chain A→B→C→D, extracting at D walks D,C,B,A and
returns the induced subgraph — here the whole chain, A→B, B→C, C→D. -/
theorem C6_witness :
    Wf gABCD ∧ Acyclic gABCD ∧
    (∃ l, backWalkF gABCD (nodeIds gABCD).length ("D") = some l ∧
      BChain gABCD ("D") l ∧
      extract_asexual_lineage (nodeIds gABCD).length gABCD ("D")
        = some (Except.ok (inducedSubgraph gABCD l))) ∧
    extract_asexual_lineage (nodeIds gABCD).length gABCD ("D")
      = some (Except.ok gABCD) := by
  have hwf : Wf gABCD := ⟨by decide, by decide, by decide⟩
  have hac : Acyclic gABCD := acyclic_of_rank gABCD rankABCD (by decide)
  refine ⟨hwf, hac, ?_, by rfl⟩
  exact (C6_extract_lineage_behaviour gABCD ("D") hwf hac).2.2 (by rfl) (by rfl)

/-! ## C4: invariants of `abstract_asexual_lineage`

The monadic loop is first related, under the preconditions the function has
already checked, to a pure left fold `stepD` along the chain of taxa; the
invariants are then established by induction along that fold. -/

/-- Total attribute read (used only where presence has been checked). -/
def attrGetD (g : Graph) (i : String) (a : String) : Value :=
  (assocLookup (attrsOf g i) a).getD (Value.str (""))

/-- Pure counterpart of `projState`. -/
def projStateD (g : Graph) (i : String) (attrs : List String) : List Value :=
  attrs.map (attrGetD g i)

/-- Pure counterpart of `attrPairs`. -/
def attrPairsD (g : Graph) (i : String) (attrs : List String) : AttrMap :=
  attrs.map (fun a => (a, attrGetD g i a))

/-- Pure counterpart of `mkState`. -/
def mkStateD (g : Graph) (attrs : List String) (trackO : Bool) (oattr : String)
    (sid : Nat) (i : String) : AState :=
  { state_id := sid, node_state := projStateD g i attrs, attrs := attrPairsD g i attrs,
    origin_time := if trackO then some (attrGetD g i oattr) else none,
    destruction_time := none, members := [(i, attrsOf g i)] }

/-- The root state, with its `destruction_time` initialisation. -/
def rootStateD (g : Graph) (attrs : List String) (trackO trackD : Bool)
    (oattr dattr : String) (r : String) : AState :=
  { mkStateD g attrs trackO oattr 0 r with
    destruction_time := if trackD then some (attrGetD g r dattr) else none }

/-- One pure iteration of the abstraction loop. -/
def stepD (g : Graph) (attrs : List String) (trackO trackD : Bool)
    (oattr dattr : String) (acc : AbsAcc) (nxt : String) : AbsAcc :=
  if acc.cur.node_state = projStateD g nxt attrs then
    { acc with cur :=
        { acc.cur with
          members := assocSet acc.cur.members nxt (attrsOf g nxt),
          destruction_time :=
            if trackD then some (attrGetD g nxt dattr)
            else acc.cur.destruction_time } }
  else
    { done := acc.done ++ [acc.cur],
      cur := mkStateD g attrs trackO oattr (acc.cur.state_id + 1) nxt,
      edges := acc.edges ++ [(acc.cur.state_id, acc.cur.state_id + 1)] }

theorem attrsOf_spec (g : Graph) (i : String) (hi : i ∈ nodeIds g) :
    ∃ p, p ∈ g.nodes ∧ p.1 = i ∧ attrsOf g i = p.2 := by
  unfold attrsOf
  rcases hf : g.nodes.find? (fun p => p.1 == i) with _ | p
  · exfalso
    rcases List.mem_map.mp hi with ⟨q, hq, rfl⟩
    have := List.find?_eq_none.mp hf q hq
    simp at this
  · have hcond := List.find?_some hf
    have hmem := List.mem_of_find?_eq_some hf
    refine ⟨p, hmem, by simpa using hcond, ?_⟩
    rw [hf]

theorem has_of_all (g : Graph) (a : String)
    (hall : all_taxa_have_attribute g a = true) (i : String) (hi : i ∈ nodeIds g) :
    assocHas (attrsOf g i) a = true := by
  obtain ⟨p, hp, _, hattr⟩ := attrsOf_spec g i hi
  rw [hattr]
  exact List.all_eq_true.mp hall p hp

theorem has_of_all_list (g : Graph) (attrs : List String)
    (hall : all_taxa_have_attributes g attrs = true) (i : String)
    (hi : i ∈ nodeIds g) : ∀ a ∈ attrs, assocHas (attrsOf g i) a = true := by
  obtain ⟨p, hp, _, hattr⟩ := attrsOf_spec g i hi
  intro a ha
  rw [hattr]
  exact List.all_eq_true.mp (List.all_eq_true.mp hall p hp) a ha

theorem keyGet_ok (m : AttrMap) (a : String) (h : assocHas m a = true) :
    keyGet m a = Except.ok ((assocLookup m a).getD (Value.str (""))) := by
  unfold keyGet
  rcases hl : assocLookup m a with _ | v
  · unfold assocHas at h
    rw [hl] at h
    cases h
  · rfl

theorem keyGet_attrGetD (g : Graph) (i : String) (a : String)
    (h : assocHas (attrsOf g i) a = true) :
    keyGet (attrsOf g i) a = Except.ok (attrGetD g i a) :=
  keyGet_ok _ a h

theorem projState_ok (g : Graph) (i : String) (attrs : List String)
    (h : ∀ a ∈ attrs, assocHas (attrsOf g i) a = true) :
    projState g i attrs = Except.ok (projStateD g i attrs) := by
  induction attrs with
  | nil => rfl
  | cons a rest ih =>
    have ha := h a (List.mem_cons_self a rest)
    have hrest := ih (fun b hb => h b (List.mem_cons_of_mem a hb))
    simp [projState, keyGet_attrGetD g i a ha, hrest, projStateD, bind, Except.bind]

theorem attrPairs_ok (g : Graph) (i : String) (attrs : List String)
    (h : ∀ a ∈ attrs, assocHas (attrsOf g i) a = true) :
    attrPairs g i attrs = Except.ok (attrPairsD g i attrs) := by
  induction attrs with
  | nil => rfl
  | cons a rest ih =>
    have ha := h a (List.mem_cons_self a rest)
    have hrest := ih (fun b hb => h b (List.mem_cons_of_mem a hb))
    simp [attrPairs, keyGet_attrGetD g i a ha, hrest, attrPairsD, bind, Except.bind]

theorem mkState_ok (g : Graph) (attrs : List String) (trackO : Bool)
    (oattr : String) (sid : Nat) (i : String)
    (h : ∀ a ∈ attrs, assocHas (attrsOf g i) a = true)
    (hO : trackO = true → assocHas (attrsOf g i) oattr = true) :
    mkState g attrs trackO oattr sid i
      = Except.ok (mkStateD g attrs trackO oattr sid i) := by
  cases trackO
  · simp [mkState, projState_ok g i attrs h, attrPairs_ok g i attrs h, mkStateD,
      bind, Except.bind, pure, Except.pure]
  · simp [mkState, projState_ok g i attrs h, attrPairs_ok g i attrs h, mkStateD,
      keyGet_attrGetD g i oattr (hO rfl), bind, Except.bind, pure, Except.pure]

/-- The chain walked by `is_asexual_lineage` (and then by the abstraction
loop): each node has exactly the next one as successor, the last has none. -/
inductive SChain (g : Graph) : String → List String → Prop
  | last (i : String) : succs g i = [] → SChain g i [i]
  | cons (i j : String) (l : List String) :
      succs g i = [j] → SChain g j l → SChain g i (i :: l)

theorem schain_shape {g : Graph} {u : String} {l : List String}
    (h : SChain g u l) : ∃ l', l = u :: l' := by
  cases h with
  | last _ _ => exact ⟨[], rfl⟩
  | cons _ j l' _ _ => exact ⟨l', rfl⟩

theorem lineageCheckLoop_schain (g : Graph) :
    ∀ (k : Nat) (u : String), lineageCheckLoop g k u = some true →
      ∃ l, SChain g u l ∧ l.length ≤ k := by
  intro k
  induction k with
  | zero =>
    intro u h
    cases h
  | succ k ih =>
    intro u h
    rcases hs : succs g u with _ | ⟨j, rest⟩
    · exact ⟨[u], SChain.last u hs, by simp⟩
    · rcases rest with _ | ⟨j2, rest2⟩
      · simp only [lineageCheckLoop, hs] at h
        rcases ih j h with ⟨l, hc, hlen⟩
        refine ⟨u :: l, SChain.cons u j l hs hc, ?_⟩
        rw [List.length_cons]
        omega
      · simp only [lineageCheckLoop, hs] at h
        cases h

theorem schain_edge {g : Graph} {i j : String} (hs : succs g i = [j]) :
    (i, j) ∈ g.edges :=
  (mem_succs g i j).mp (hs ▸ List.mem_cons_self j [])

theorem schain_mem_ids {g : Graph}
    (hedges : ∀ e ∈ g.edges, e.1 ∈ nodeIds g ∧ e.2 ∈ nodeIds g) :
    ∀ {u : String} {l : List String}, SChain g u l → u ∈ nodeIds g →
      ∀ x ∈ l, x ∈ nodeIds g := by
  intro u l h
  induction h with
  | last i _ =>
    intro hu x hx
    rw [List.mem_singleton] at hx
    subst hx
    exact hu
  | cons i j l' hs hc ih =>
    intro hu x hx
    rcases List.mem_cons.mp hx with rfl | hx
    · exact hu
    · exact ih ((hedges _ (schain_edge hs)).2) x hx

theorem schain_transGen {g : Graph} :
    ∀ {u : String} {l : List String}, SChain g u l →
      ∀ x ∈ l, x = u ∨ Relation.TransGen (Adj g) u x := by
  intro u l h
  induction h with
  | last i _ =>
    intro x hx
    rw [List.mem_singleton] at hx
    exact Or.inl hx
  | cons i j l' hs hc ih =>
    intro x hx
    rcases List.mem_cons.mp hx with rfl | hx
    · exact Or.inl rfl
    · rcases ih x hx with rfl | htg
      · exact Or.inr (Relation.TransGen.single (schain_edge hs))
      · exact Or.inr (Relation.TransGen.head (schain_edge hs) htg)

theorem schain_nodup {g : Graph} (hac : Acyclic g) :
    ∀ {u : String} {l : List String}, SChain g u l → l.Nodup := by
  intro u l h
  induction h with
  | last i _ => exact List.nodup_singleton i
  | cons i j l' hs hc ih =>
    refine List.nodup_cons.mpr ⟨?_, ih⟩
    intro hmem
    rcases schain_transGen hc i hmem with rfl | htg
    · exact hac i (Relation.TransGen.single (schain_edge hs))
    · exact hac i (Relation.TransGen.head (schain_edge hs) htg)

theorem schain_succ_mem {g : Graph} :
    ∀ {c : String} {m : List String}, SChain g c m →
      ∀ p ∈ m, ∀ x, x ∈ succs g p → x ∈ m := by
  intro c m h
  induction h with
  | last i hs =>
    intro p hp x hx
    rw [List.mem_singleton] at hp
    subst hp
    rw [hs] at hx
    cases hx
  | cons i j l' hs hc ih =>
    intro p hp x hx
    rcases List.mem_cons.mp hp with rfl | hp
    · rw [hs] at hx
      rw [List.mem_singleton] at hx
      subst hx
      rcases schain_shape hc with ⟨l'', rfl⟩
      exact List.mem_cons_of_mem _ (List.mem_cons_self _ _)
    · exact List.mem_cons_of_mem _ (ih p hp x hx)

/-- Under the preconditions `abstract_asexual_lineage` has checked, the
monadic loop computes the pure fold of `stepD` along the tail of the chain. -/
theorem abstractLoop_eq_foldl (g : Graph) (attrs : List String)
    (trackO trackD : Bool) (oattr dattr : String)
    (hedges : ∀ e ∈ g.edges, e.1 ∈ nodeIds g ∧ e.2 ∈ nodeIds g)
    (hattrs : ∀ i ∈ nodeIds g, ∀ a ∈ attrs, assocHas (attrsOf g i) a = true)
    (hO : trackO = true → ∀ i ∈ nodeIds g, assocHas (attrsOf g i) oattr = true)
    (hD : trackD = true → ∀ i ∈ nodeIds g, assocHas (attrsOf g i) dattr = true) :
    ∀ {u : String} {l : List String}, SChain g u l → u ∈ nodeIds g →
      ∀ (acc : AbsAcc) (k : Nat), l.length ≤ k →
      abstractLoop g attrs trackO trackD oattr dattr k u acc
        = some (Except.ok
            (finishAcc (l.tail.foldl (stepD g attrs trackO trackD oattr dattr) acc))) := by
  intro u l h
  induction h with
  | last i hs =>
    intro hu acc k hk
    rcases k with _ | k
    · simp at hk
    · simp only [abstractLoop, hs, List.tail_cons, List.foldl_nil]
  | cons i j l' hs hc ih =>
    intro hu acc k hk
    rcases k with _ | k
    · simp at hk
    have hj : j ∈ nodeIds g := (hedges _ (schain_edge hs)).2
    have hproj : projState g j attrs = Except.ok (projStateD g j attrs) :=
      projState_ok g j attrs (hattrs j hj)
    have hk' : l'.length ≤ k := by
      rw [List.length_cons] at hk
      omega
    rcases schain_shape hc with ⟨l'', hl''⟩
    have htail : (i :: l').tail.foldl (stepD g attrs trackO trackD oattr dattr) acc
        = l'.tail.foldl (stepD g attrs trackO trackD oattr dattr)
            (stepD g attrs trackO trackD oattr dattr acc j) := by
      rw [List.tail_cons, hl'', List.foldl_cons, List.tail_cons]
    rw [htail]
    have hdok : (if trackD then (keyGet (attrsOf g j) dattr).map some
        else Except.ok (none : Option Value))
        = Except.ok (if trackD then some (attrGetD g j dattr) else none) := by
      cases htD : trackD
      · rfl
      · rw [keyGet_attrGetD g j dattr (hD htD j hj)]
        rfl
    simp only [abstractLoop, hs, hproj]
    by_cases hif : acc.cur.node_state = projStateD g j attrs
    · rw [if_pos hif]
      simp only [hdok]
      have hmatch : (match (if trackD then some (attrGetD g j dattr) else none) with
          | some v => some v
          | none => acc.cur.destruction_time)
          = (if trackD then some (attrGetD g j dattr) else acc.cur.destruction_time) := by
        cases trackD <;> rfl
      rw [hmatch]
      rw [ih hj _ k hk']
      have hstep : stepD g attrs trackO trackD oattr dattr acc j
          = { acc with cur :=
                { acc.cur with
                  members := assocSet acc.cur.members j (attrsOf g j),
                  destruction_time :=
                    if trackD then some (attrGetD g j dattr)
                    else acc.cur.destruction_time } } := by
        unfold stepD
        rw [if_pos hif]
      rw [hstep]
    · rw [if_neg hif]
      simp only [mkState_ok g attrs trackO oattr (acc.cur.state_id + 1) j
        (hattrs j hj) (fun ht => hO ht j hj)]
      rw [ih hj _ k hk']
      have hstep : stepD g attrs trackO trackD oattr dattr acc j
          = { done := acc.done ++ [acc.cur],
              cur := mkStateD g attrs trackO oattr (acc.cur.state_id + 1) j,
              edges := acc.edges ++ [(acc.cur.state_id, acc.cur.state_id + 1)] } := by
        unfold stepD
        rw [if_neg hif]
      rw [hstep]

/-- The member-id list of a state. -/
def stateMemberIds (s : AState) : List String := s.members.map Prod.fst

/-- All states held by the accumulator, in `state_id` order. -/
def accStates (acc : AbsAcc) : List AState := acc.done ++ [acc.cur]

/-- The loop invariant of the abstraction walk: state ids are `0..m` with the
open state last, the edges chain them in order, every state has members, and
the member ids spell out the processed prefix of the chain. -/
def AccInv (processed : List String) (acc : AbsAcc) : Prop :=
  acc.done.map AState.state_id = List.range acc.done.length ∧
  acc.cur.state_id = acc.done.length ∧
  acc.edges = (List.range acc.done.length).map (fun n => (n, n + 1)) ∧
  (∀ s ∈ accStates acc, s.members ≠ []) ∧
  ((accStates acc).map stateMemberIds).flatten = processed

theorem assocSet_fresh {β : Type} (m : List (String × β)) (i : String) (v : β)
    (h : i ∉ m.map Prod.fst) : assocSet m i v = m ++ [(i, v)] := by
  induction m with
  | nil => rfl
  | cons p rest ih =>
    have hne : ¬ p.1 = i := by
      intro he
      exact h (by rw [List.map_cons, he]; exact List.mem_cons_self _ _)
    have htail : i ∉ rest.map Prod.fst := by
      intro hm
      exact h (by rw [List.map_cons]; exact List.mem_cons_of_mem _ hm)
    simp only [assocSet, hne, if_false, ih htail, List.cons_append]

theorem flatten_states_snoc (A : List AState) (c : AState) :
    (((A ++ [c]).map stateMemberIds).flatten)
      = ((A.map stateMemberIds).flatten) ++ stateMemberIds c := by
  simp [List.map_append, List.flatten_append]

/-- One pure step preserves the invariant, extending the processed list. -/
theorem stepD_inv (g : Graph) (attrs : List String) (trackO trackD : Bool)
    (oattr dattr : String) (processed : List String) (acc : AbsAcc) (nxt : String)
    (hinv : AccInv processed acc) (hfresh : nxt ∉ processed) :
    AccInv (processed ++ [nxt]) (stepD g attrs trackO trackD oattr dattr acc nxt) := by
  obtain ⟨h1, h2, h3, h4, h5⟩ := hinv
  have h5' : ((acc.done.map stateMemberIds).flatten) ++ stateMemberIds acc.cur
      = processed := by
    rw [← flatten_states_snoc]
    exact h5
  unfold stepD
  by_cases hif : acc.cur.node_state = projStateD g nxt attrs
  · rw [if_pos hif]
    have hcurids : stateMemberIds acc.cur ⊆ processed := by
      intro x hx
      rw [← h5']
      exact List.mem_append_right _ hx
    have hnotin : nxt ∉ acc.cur.members.map Prod.fst := fun hm => hfresh (hcurids hm)
    have hset : assocSet acc.cur.members nxt (attrsOf g nxt)
        = acc.cur.members ++ [(nxt, attrsOf g nxt)] := assocSet_fresh _ _ _ hnotin
    refine ⟨h1, h2, h3, ?_, ?_⟩
    · intro s hs
      unfold accStates at hs
      rcases List.mem_append.mp hs with hs | hs
      · exact h4 s (List.mem_append_left _ hs)
      · rw [List.mem_singleton] at hs
        subst hs
        simp [hset]
    · show (((acc.done ++ [_]).map stateMemberIds).flatten) = processed ++ [nxt]
      rw [flatten_states_snoc]
      have hids : stateMemberIds
          { acc.cur with
            members := assocSet acc.cur.members nxt (attrsOf g nxt),
            destruction_time :=
              if trackD then some (attrGetD g nxt dattr)
              else acc.cur.destruction_time }
          = stateMemberIds acc.cur ++ [nxt] := by
        unfold stateMemberIds
        rw [hset]
        simp
      rw [hids, ← List.append_assoc, h5']
  · rw [if_neg hif]
    refine ⟨?_, ?_, ?_, ?_, ?_⟩
    · show (acc.done ++ [acc.cur]).map AState.state_id
        = List.range (acc.done ++ [acc.cur]).length
      rw [List.map_append, h1, List.length_append]
      simp [h2, List.range_succ]
    · show (mkStateD g attrs trackO oattr (acc.cur.state_id + 1) nxt).state_id
        = (acc.done ++ [acc.cur]).length
      rw [List.length_append]
      simp [mkStateD, h2]
    · show acc.edges ++ [(acc.cur.state_id, acc.cur.state_id + 1)]
        = (List.range (acc.done ++ [acc.cur]).length).map (fun n => (n, n + 1))
      rw [List.length_append, h3, h2]
      simp [List.range_succ]
    · intro s hs
      unfold accStates at hs
      rcases List.mem_append.mp hs with hs | hs
      · rcases List.mem_append.mp hs with hs | hs
        · exact h4 s (List.mem_append_left _ hs)
        · rw [List.mem_singleton] at hs
          subst hs
          exact h4 _ (List.mem_append_right _ (List.mem_singleton_self _))
      · rw [List.mem_singleton] at hs
        subst hs
        simp [mkStateD]
    · show ((((acc.done ++ [acc.cur]) ++ [_]).map stateMemberIds).flatten)
        = processed ++ [nxt]
      rw [flatten_states_snoc, flatten_states_snoc]
      have hids : stateMemberIds (mkStateD g attrs trackO oattr (acc.cur.state_id + 1) nxt)
          = [nxt] := by
        simp [mkStateD, stateMemberIds]
      rw [hids, h5']

/-- The fold preserves the invariant along a duplicate-free chain. -/
theorem foldl_inv (g : Graph) (attrs : List String) (trackO trackD : Bool)
    (oattr dattr : String) :
    ∀ (rest processed : List String) (acc : AbsAcc), AccInv processed acc →
      (processed ++ rest).Nodup →
      AccInv (processed ++ rest)
        (rest.foldl (stepD g attrs trackO trackD oattr dattr) acc) := by
  intro rest
  induction rest with
  | nil =>
    intro processed acc h _
    simpa using h
  | cons nxt rest' ih =>
    intro processed acc h hnd
    have hfresh : nxt ∉ processed := by
      intro hmem
      exact (List.nodup_append.mp hnd).2.2 hmem (List.mem_cons_self _ _)
    have hstep := stepD_inv g attrs trackO trackD oattr dattr processed acc nxt h hfresh
    have hassoc : processed ++ nxt :: rest' = (processed ++ [nxt]) ++ rest' := by simp
    rw [hassoc] at hnd ⊢
    exact ih (processed ++ [nxt]) _ hstep hnd

/-- On an acyclic well-formed graph whose roots are exactly `[r]`, the chain
from `r` visits every node: every node reaches a root backwards, and forward
paths from the root stay on the chain. -/
theorem schain_covers (g : Graph) (hwf : Wf g) (hac : Acyclic g) (r : String)
    (l : List String) (hroots : get_root_ids g = [r]) (hchain : SChain g r l) :
    ∀ u ∈ nodeIds g, u ∈ l := by
  have hmain : ∀ (k : Nat) (u : String) (D : List String), u ∈ nodeIds g →
      D.Nodup → (∀ d ∈ D, d ∈ nodeIds g) →
      (∀ d ∈ D, Relation.TransGen (Adj g) u d) →
      (nodeIds g).length ≤ D.length + k → u ∈ l := by
    intro k
    induction k with
    | zero =>
      intro u D hu hnd hDin hDtg hb
      exfalso
      have hun : u ∉ D := fun hu' => hac u (hDtg u hu')
      have hnodup : (u :: D).Nodup := List.nodup_cons.mpr ⟨hun, hnd⟩
      have hsub : (u :: D) ⊆ nodeIds g := by
        intro x hx
        rcases List.mem_cons.mp hx with rfl | hx
        · exact hu
        · exact hDin x hx
      have := nodup_subset_length_le hnodup hsub
      rw [List.length_cons] at this
      omega
    | succ k ih =>
      intro u D hu hnd hDin hDtg hb
      rcases hp : preds g u with _ | ⟨p, rest⟩
      · have hu_root : u ∈ get_root_ids g := by
          rcases List.mem_map.mp hu with ⟨q, hq, rfl⟩
          exact List.mem_map_of_mem _
            (List.mem_filter.mpr ⟨hq, by simp [hp]⟩)
        rw [hroots, List.mem_singleton] at hu_root
        subst hu_root
        rcases schain_shape hchain with ⟨l', rfl⟩
        exact List.mem_cons_self _ _
      · have hedge : (p, u) ∈ g.edges :=
          (mem_preds g p u).mp (hp ▸ List.mem_cons_self p rest)
        have hpin : p ∈ nodeIds g := (hwf.2.2 _ hedge).1
        have hun : u ∉ D := fun hu' => hac u (hDtg u hu')
        have hpl : p ∈ l := by
          refine ih p (u :: D) hpin (List.nodup_cons.mpr ⟨hun, hnd⟩) ?_ ?_ ?_
          · intro d hd
            rcases List.mem_cons.mp hd with rfl | hd
            · exact hu
            · exact hDin d hd
          · intro d hd
            rcases List.mem_cons.mp hd with rfl | hd
            · exact Relation.TransGen.single hedge
            · exact Relation.TransGen.head hedge (hDtg d hd)
          · rw [List.length_cons]
            omega
        exact schain_succ_mem hchain p hpl u ((mem_succs g p u).mpr hedge)
  intro u hu
  exact hmain (nodeIds g).length u [] hu List.nodup_nil
    (fun d hd => absurd hd (List.not_mem_nil d))
    (fun d hd => absurd hd (List.not_mem_nil d)) (by simp)

/-- In a duplicate-free flattened family, a present element lies in exactly
one part. -/
theorem countP_unique_flatten (LL : List (List String)) (i : String)
    (hnd : LL.flatten.Nodup) (hi : i ∈ LL.flatten) :
    LL.countP (fun s => s.contains i) = 1 := by
  induction LL with
  | nil => cases hi
  | cons s rest ih =>
    rw [List.flatten_cons] at hnd hi
    have hdisj := (List.nodup_append.mp hnd).2.2
    rw [List.countP_cons]
    rcases List.mem_append.mp hi with his | hirest
    · have hps : s.contains i = true := (contains_iff s i).mpr his
      have h0 : rest.countP (fun s => s.contains i) = 0 := by
        rw [List.countP_eq_zero]
        intro x hx hcon
        have : i ∈ rest.flatten :=
          List.mem_flatten.mpr ⟨x, hx, (contains_iff x i).mp hcon⟩
        exact hdisj his this
      rw [h0, if_pos hps]
    · have hps : s.contains i = false := by
        rw [← Bool.not_eq_true, contains_iff]
        intro his
        exact hdisj his hirest
      rw [ih (List.nodup_append.mp hnd).2.1 hirest, hps]
      simp

/-- Eliminating a positive `is_asexual_lineage` check into its root and loop
result. -/
theorem is_asexual_lineage_true_elim (g : Graph) (fuel : Nat)
    (h : is_asexual_lineage fuel g = some true) :
    ∃ r, get_root_ids g = [r] ∧ lineageCheckLoop g fuel r = some true := by
  unfold is_asexual_lineage at h
  rcases hr : get_root_ids g with _ | ⟨r, rest⟩
  · simp only [hr] at h
    cases h
  · rcases rest with _ | ⟨r2, rest2⟩
    · simp only [hr] at h
      exact ⟨r, rfl, h⟩
    · simp only [hr] at h
      cases h

/-- C4: for every input `abstract_asexual_lineage` accepts on a well-formed
acyclic graph, the returned abstract lineage has state ids exactly `0..n-1`
in order, edges exactly `k→k+1`, no empty `members`, and every source taxon in
exactly one state's `members` (and `members` only holds source taxa). -/
theorem C4_abstract_lineage_invariants (g : Graph) (attrs : List String)
    (oattr dattr : String) (L : AbstractLineage) (hwf : Wf g) (hac : Acyclic g)
    (hok : abstract_asexual_lineage (nodeIds g).length g attrs oattr dattr
      = some (Except.ok L)) :
    L.states.map AState.state_id = List.range L.states.length ∧
    L.edges = (List.range (L.states.length - 1)).map (fun n => (n, n + 1)) ∧
    (∀ s ∈ L.states, s.members ≠ []) ∧
    (∀ i ∈ nodeIds g, L.states.countP (fun s => (stateMemberIds s).contains i) = 1) ∧
    (∀ s ∈ L.states, ∀ q ∈ s.members, q.1 ∈ nodeIds g) := by
  unfold abstract_asexual_lineage at hok
  rcases hlin : is_asexual_lineage (nodeIds g).length g with _ | b
  · simp only [hlin] at hok
    cases hok
  · cases b
    · simp only [hlin] at hok
      cases hok
    · simp only [hlin] at hok
      by_cases ha : all_taxa_have_attributes g attrs = true
      case neg =>
        rw [Bool.not_eq_true] at ha
        simp [ha] at hok
      simp only [ha, Bool.not_true, Bool.false_eq_true, if_false] at hok
      by_cases hr1 : ("node_state") ∈ attrs
      case pos => simp [hr1] at hok
      have hb1 : attrs.contains ("node_state") = false := by simpa using hr1
      simp only [hb1, Bool.false_eq_true, if_false] at hok
      by_cases hr2 : ("members") ∈ attrs
      case pos => simp [hr2] at hok
      have hb2 : attrs.contains ("members") = false := by simpa using hr2
      simp only [hb2, Bool.false_eq_true, if_false] at hok
      by_cases hr3 : ("state_id") ∈ attrs
      case pos => simp [hr3] at hok
      have hb3 : attrs.contains ("state_id") = false := by simpa using hr3
      simp only [hb3, Bool.false_eq_true, if_false] at hok
      obtain ⟨r, hroots, hloop⟩ :=
        is_asexual_lineage_true_elim g (nodeIds g).length hlin
      simp only [hroots] at hok
      have hrin : r ∈ nodeIds g :=
        get_root_ids_subset g (hroots ▸ List.mem_cons_self r [])
      have hattrsP : ∀ i ∈ nodeIds g, ∀ a ∈ attrs, assocHas (attrsOf g i) a = true :=
        fun i hi => has_of_all_list g attrs ha i hi
      have hOP : all_taxa_have_attribute g oattr = true →
          ∀ i ∈ nodeIds g, assocHas (attrsOf g i) oattr = true :=
        fun ht i hi => has_of_all g oattr ht i hi
      have hDP : all_taxa_have_attribute g dattr = true →
          ∀ i ∈ nodeIds g, assocHas (attrsOf g i) dattr = true :=
        fun ht i hi => has_of_all g dattr ht i hi
      have hrootok : (do
          let s0 ← mkState g attrs (all_taxa_have_attribute g oattr) oattr 0 r
          if all_taxa_have_attribute g dattr then do
            let v ← keyGet (attrsOf g r) dattr
            Except.ok { s0 with destruction_time := some v }
          else Except.ok s0)
          = Except.ok (rootStateD g attrs (all_taxa_have_attribute g oattr)
              (all_taxa_have_attribute g dattr) oattr dattr r) := by
        rw [mkState_ok g attrs (all_taxa_have_attribute g oattr) oattr 0 r
          (hattrsP r hrin) (fun ht => hOP ht r hrin)]
        cases htD : all_taxa_have_attribute g dattr
        · simp [bind, Except.bind, rootStateD, htD, mkStateD]
        · simp [bind, Except.bind, keyGet_attrGetD g r dattr (hDP htD r hrin),
            rootStateD, htD, mkStateD]
      simp only [hrootok] at hok
      obtain ⟨l, hchain, hlen⟩ := lineageCheckLoop_schain g (nodeIds g).length r hloop
      have hfoldeq := abstractLoop_eq_foldl g attrs
        (all_taxa_have_attribute g oattr) (all_taxa_have_attribute g dattr)
        oattr dattr hwf.2.2 hattrsP hOP hDP hchain hrin
        { done := [], cur := rootStateD g attrs (all_taxa_have_attribute g oattr)
            (all_taxa_have_attribute g dattr) oattr dattr r, edges := [] }
        (nodeIds g).length hlen
      rw [hfoldeq] at hok
      simp only [Option.some.injEq, Except.ok.injEq] at hok
      subst hok
      rcases schain_shape hchain with ⟨ltail, hlshape⟩
      have hinv0 : AccInv [r]
          { done := [], cur := rootStateD g attrs (all_taxa_have_attribute g oattr)
              (all_taxa_have_attribute g dattr) oattr dattr r, edges := [] } := by
        refine ⟨rfl, rfl, rfl, ?_, rfl⟩
        intro s hs
        rcases List.mem_singleton.mp hs with rfl
        simp [rootStateD, mkStateD]
      have hnodupl : l.Nodup := schain_nodup hac hchain
      have hndproc : ([r] ++ l.tail).Nodup := by
        rw [hlshape] at hnodupl ⊢
        simpa using hnodupl
      have hfold := foldl_inv g attrs (all_taxa_have_attribute g oattr)
        (all_taxa_have_attribute g dattr) oattr dattr l.tail [r] _ hinv0 hndproc
      have hproc : [r] ++ l.tail = l := by
        rw [hlshape]
        rfl
      rw [hproc] at hfold
      obtain ⟨f1, f2, f3, f4, f5⟩ := hfold
      set accF := l.tail.foldl (stepD g attrs (all_taxa_have_attribute g oattr)
        (all_taxa_have_attribute g dattr) oattr dattr)
        { done := [], cur := rootStateD g attrs (all_taxa_have_attribute g oattr)
            (all_taxa_have_attribute g dattr) oattr dattr r, edges := [] } with hacc
      have hstates : (finishAcc accF).states = accStates accF := rfl
      have hcover : ∀ u ∈ nodeIds g, u ∈ l := schain_covers g hwf hac r l hroots hchain
      have hsubl : ∀ x ∈ l, x ∈ nodeIds g :=
        schain_mem_ids hwf.2.2 hchain hrin
      refine ⟨?_, ?_, ?_, ?_, ?_⟩
      · rw [hstates]
        unfold accStates
        rw [List.map_append, f1, List.length_append]
        simp [f2, List.range_succ]
      · rw [hstates]
        unfold accStates
        rw [show (finishAcc accF).edges = accF.edges from rfl, f3, List.length_append]
        simp
      · intro s hs
        rw [hstates] at hs
        exact f4 s hs
      · intro i hi
        have hil : i ∈ l := hcover i hi
        have hflat : ((accStates accF).map stateMemberIds).flatten = l := f5
        have hndflat : ((accStates accF).map stateMemberIds).flatten.Nodup := by
          rw [hflat]
          exact hnodupl
        have hiflat : i ∈ ((accStates accF).map stateMemberIds).flatten := by
          rw [hflat]
          exact hil
        have := countP_unique_flatten ((accStates accF).map stateMemberIds) i
          hndflat hiflat
        rw [List.countP_map] at this
        rw [hstates]
        exact this
      · intro s hs q hq
        rw [hstates] at hs
        have : q.1 ∈ ((accStates accF).map stateMemberIds).flatten :=
          List.mem_flatten.mpr ⟨stateMemberIds s, List.mem_map_of_mem _ hs,
            List.mem_map_of_mem _ hq⟩
        rw [f5] at this
        exact hsubl q.1 this

/-- A rank function for the six-taxon chain. -/
def rankSix : String → Nat :=
  fun s =>
    if s = ("t0") then 0 else if s = ("t1") then 1 else if s = ("t2") then 2
    else if s = ("t3") then 3 else if s = ("t4") then 4 else 5

/-- C4 witness: the six-taxon chain satisfies the hypotheses and its abstract
lineage satisfies all the invariants. -/
theorem C4_witness :
    Wf gSixChain ∧ Acyclic gSixChain ∧
    ∃ L, abstract_asexual_lineage (nodeIds gSixChain).length gSixChain [("trait")]
        ("origin_time") ("destruction_time") = some (Except.ok L) ∧
      (L.states.map AState.state_id = List.range L.states.length ∧
       L.edges = (List.range (L.states.length - 1)).map (fun n => (n, n + 1)) ∧
       (∀ s ∈ L.states, s.members ≠ []) ∧
       (∀ i ∈ nodeIds gSixChain,
         L.states.countP (fun s => (stateMemberIds s).contains i) = 1) ∧
       (∀ s ∈ L.states, ∀ q ∈ s.members, q.1 ∈ nodeIds gSixChain)) := by
  have hwf : Wf gSixChain := ⟨by decide, by decide, by decide⟩
  have hac : Acyclic gSixChain := acyclic_of_rank gSixChain rankSix (by decide)
  exact ⟨hwf, hac, _, rfl, C4_abstract_lineage_invariants gSixChain [("trait")]
    ("origin_time") ("destruction_time") _ hwf hac rfl⟩

/-! ## C10: the extracted lineage satisfies `is_asexual_lineage` -/

theorem bchain_shape {g : Graph} {u : String} {l : List String}
    (h : BChain g u l) : ∃ l', l = u :: l' := by
  cases h with
  | root _ _ => exact ⟨[], rfl⟩
  | cons _ p l' _ _ => exact ⟨l', rfl⟩

theorem bchain_mem_ids {g : Graph}
    (hedges : ∀ e ∈ g.edges, e.1 ∈ nodeIds g ∧ e.2 ∈ nodeIds g) :
    ∀ {u : String} {l : List String}, BChain g u l → u ∈ nodeIds g →
      ∀ x ∈ l, x ∈ nodeIds g := by
  intro u l h
  induction h with
  | root i _ =>
    intro hu x hx
    rw [List.mem_singleton] at hx
    subst hx
    exact hu
  | cons i p l' hp hc ih =>
    intro hu x hx
    rcases List.mem_cons.mp hx with rfl | hx
    · exact hu
    · have hedge : (p, i) ∈ g.edges :=
        (mem_preds g p i).mp (hp ▸ List.mem_cons_self p [])
      exact ih ((hedges _ hedge).1) x hx

theorem bchain_transGen {g : Graph} :
    ∀ {u : String} {l : List String}, BChain g u l →
      ∀ x ∈ l, x = u ∨ Relation.TransGen (Adj g) x u := by
  intro u l h
  induction h with
  | root i _ =>
    intro x hx
    rw [List.mem_singleton] at hx
    exact Or.inl hx
  | cons i p l' hp hc ih =>
    intro x hx
    have hedge : (p, i) ∈ g.edges :=
      (mem_preds g p i).mp (hp ▸ List.mem_cons_self p [])
    rcases List.mem_cons.mp hx with rfl | hx
    · exact Or.inl rfl
    · rcases ih x hx with rfl | htg
      · exact Or.inr (Relation.TransGen.single hedge)
      · exact Or.inr (htg.tail hedge)

theorem bchain_nodup {g : Graph} (hac : Acyclic g) :
    ∀ {u : String} {l : List String}, BChain g u l → l.Nodup := by
  intro u l h
  induction h with
  | root i _ => exact List.nodup_singleton i
  | cons i p l' hp hc ih =>
    refine List.nodup_cons.mpr ⟨?_, ih⟩
    intro hmem
    have hedge : (p, i) ∈ g.edges :=
      (mem_preds g p i).mp (hp ▸ List.mem_cons_self p [])
    rcases bchain_transGen hc i hmem with rfl | htg
    · exact hac i (Relation.TransGen.single hedge)
    · exact hac i (Relation.TransGen.tail htg hedge)

/-- Along a backward chain, each element's predecessor list is exactly the
next chain element. -/
theorem bchain_pairs {g : Graph} :
    ∀ {u : String} {l : List String}, BChain g u l →
      ∀ pr ∈ l.zip l.tail, preds g pr.1 = [pr.2] := by
  intro u l h
  induction h with
  | root i _ =>
    intro pr hpr
    cases hpr
  | cons i p l' hp hc ih =>
    intro pr hpr
    rcases bchain_shape hc with ⟨l'', rfl⟩
    rcases List.mem_cons.mp hpr with rfl | hpr
    · exact hp
    · exact ih pr hpr

/-- The last element of a backward chain has no predecessors. -/
theorem bchain_last {g : Graph} :
    ∀ {u : String} {l : List String}, BChain g u l →
      ∀ z, l.getLast? = some z → preds g z = [] := by
  intro u l h
  induction h with
  | root i hp =>
    intro z hz
    injection hz with hz
    rw [← hz]
    exact hp
  | cons i p l' hp hc ih =>
    intro z hz
    rcases bchain_shape hc with ⟨l'', rfl⟩
    rw [List.getLast?_cons_cons] at hz
    exact ih z hz

/-- In a duplicate-free list, an element of the tail has a unique predecessor
position. -/
theorem zip_tail_unique {l : List String} (hnd : l.Nodup) :
    ∀ {x1 x2 b : String}, (x1, b) ∈ l.zip l.tail → (x2, b) ∈ l.zip l.tail →
      x1 = x2 := by
  induction l with
  | nil =>
    intro x1 x2 b h1 _
    cases h1
  | cons a l2 ih =>
    intro x1 x2 b h1 h2
    cases l2 with
    | nil => cases h1
    | cons c l3 =>
      have hzip : (a :: c :: l3).zip (a :: c :: l3).tail
          = (a, c) :: ((c :: l3).zip (c :: l3).tail) := rfl
      rw [hzip] at h1 h2
      have hnd2 : (c :: l3).Nodup := (List.nodup_cons.mp hnd).2
      rcases List.mem_cons.mp h1 with he1 | h1
      · rcases List.mem_cons.mp h2 with he2 | h2
        · rw [Prod.mk.injEq] at he1 he2
          rw [he1.1, he2.1]
        · exfalso
          rw [Prod.mk.injEq] at he1
          have hb : b ∈ l3 := (List.of_mem_zip h2).2
          rw [← he1.2] at hnd2
          exact (List.nodup_cons.mp hnd2).1 hb
      · rcases List.mem_cons.mp h2 with he2 | h2
        · exfalso
          rw [Prod.mk.injEq] at he2
          have hb : b ∈ l3 := (List.of_mem_zip h1).2
          rw [← he2.2] at hnd2
          exact (List.nodup_cons.mp hnd2).1 hb
        · exact ih hnd2 h1 h2

/-- Every non-last element of a list appears as the first component of an
adjacent pair. -/
theorem mem_zip_tail_of_ne_last {l : List String} :
    ∀ {x : String}, x ∈ l → l.getLast? ≠ some x →
      ∃ y, (x, y) ∈ l.zip l.tail := by
  induction l with
  | nil =>
    intro x hx _
    cases hx
  | cons a l2 ih =>
    intro x hx hlast
    cases l2 with
    | nil =>
      rw [List.mem_singleton] at hx
      subst hx
      exact absurd rfl hlast
    | cons c l3 =>
      have hzip : (a :: c :: l3).zip (a :: c :: l3).tail
          = (a, c) :: ((c :: l3).zip (c :: l3).tail) := rfl
      rcases List.mem_cons.mp hx with rfl | hx
      · exact ⟨c, by rw [hzip]; exact List.mem_cons_self _ _⟩
      · rw [List.getLast?_cons_cons] at hlast
        rcases ih hx hlast with ⟨y, hy⟩
        exact ⟨y, by rw [hzip]; exact List.mem_cons_of_mem _ hy⟩

/-- A filter whose predicate selects exactly one element of a duplicate-free
list yields that singleton. -/
theorem filter_eq_singleton {α : Type} [DecidableEq α] (L : List α) (p : α → Bool)
    (x : α) (hnd : L.Nodup) (hx : x ∈ L) (hpx : p x = true)
    (huniq : ∀ y ∈ L, p y = true → y = x) : L.filter p = [x] := by
  induction L with
  | nil => cases hx
  | cons a rest ih =>
    have hndr := (List.nodup_cons.mp hnd).2
    have hanr := (List.nodup_cons.mp hnd).1
    by_cases hpa : p a = true
    · have hax : a = x := huniq a (List.mem_cons_self a rest) hpa
      subst hax
      rw [List.filter_cons_of_pos hpa]
      have hrest : rest.filter p = [] := by
        rw [List.filter_eq_nil_iff]
        intro y hy hpy
        have := huniq y (List.mem_cons_of_mem a hy) hpy
        subst this
        exact hanr hy
      rw [hrest]
    · have hne : a ≠ x := fun he => hpa (he ▸ hpx)
      have hxr : x ∈ rest := by
        rcases List.mem_cons.mp hx with rfl | hx
        · exact absurd rfl hne
        · exact hx
      rw [List.filter_cons_of_neg (by simpa using hpa)]
      exact ih hndr hxr (fun y hy hpy => huniq y (List.mem_cons_of_mem a hy) hpy)

/-- Entries of a list with duplicate-free first components are determined by
their first component. -/
theorem eq_of_fst_eq {β : Type} {L : List (String × β)} {q q' : String × β}
    (hnd : (L.map Prod.fst).Nodup) (hq : q ∈ L) (hq' : q' ∈ L) (h : q.1 = q'.1) :
    q = q' := by
  induction L with
  | nil => cases hq
  | cons a rest ih =>
    rw [List.map_cons] at hnd
    have hfst := (List.nodup_cons.mp hnd).1
    have hndr := (List.nodup_cons.mp hnd).2
    rcases List.mem_cons.mp hq with hqa | hq
    · rcases List.mem_cons.mp hq' with hq'a | hq'
      · rw [hqa, hq'a]
      · exfalso
        apply hfst
        rw [← hqa, h]
        exact List.mem_map_of_mem Prod.fst hq'
    · rcases List.mem_cons.mp hq' with hq'a | hq'
      · exfalso
        apply hfst
        rw [← hq'a, ← h]
        exact List.mem_map_of_mem Prod.fst hq
      · exact ih hndr hq hq'

/-- Reconstructing an `SChain` from adjacent-pair successor facts. -/
theorem schain_of_chain (G : Graph) :
    ∀ (m : List String) (c : String), m.head? = some c →
      List.Chain' (fun x y => succs G x = [y]) m →
      (∀ z, m.getLast? = some z → succs G z = []) → SChain G c m := by
  intro m
  induction m with
  | nil =>
    intro c hc _ _
    cases hc
  | cons a m2 ih =>
    intro c hc hchain hlast
    injection hc with hc
    subst hc
    cases m2 with
    | nil => exact SChain.last a (hlast a rfl)
    | cons b m3 =>
      have hab : succs G a = [b] := (List.chain'_cons.mp hchain).1
      have hrest := (List.chain'_cons.mp hchain).2
      refine SChain.cons a b (b :: m3) hab (ih b rfl hrest ?_)
      intro z hz
      exact hlast z (by rw [List.getLast?_cons_cons]; exact hz)

/-- A chain is accepted by the `is_asexual_lineage` walk. -/
theorem schain_loop_true (G : Graph) :
    ∀ {c : String} {m : List String}, SChain G c m → ∀ fuel, m.length ≤ fuel →
      lineageCheckLoop G fuel c = some true := by
  intro c m h
  induction h with
  | last i hs =>
    intro fuel hf
    rcases fuel with _ | fuel
    · simp at hf
    · simp [lineageCheckLoop, hs]
  | cons i j l' hs hc ih =>
    intro fuel hf
    rcases fuel with _ | fuel
    · simp at hf
    · simp only [lineageCheckLoop, hs]
      refine ih fuel ?_
      rw [List.length_cons] at hf
      omega

theorem mem_edges_induced (g : Graph) (keep : List String) (e : String × String) :
    e ∈ (inducedSubgraph g keep).edges ↔ e ∈ g.edges ∧ e.1 ∈ keep ∧ e.2 ∈ keep := by
  unfold inducedSubgraph
  rw [List.mem_filter]
  simp

theorem mem_nodes_induced (g : Graph) (keep : List String) (p : String × AttrMap) :
    p ∈ (inducedSubgraph g keep).nodes ↔ p ∈ g.nodes ∧ p.1 ∈ keep := by
  unfold inducedSubgraph
  rw [List.mem_filter]
  simp

theorem nodup_fst_filter {β : Type} (L : List (String × β)) (q : (String × β) → Bool)
    (h : (L.map Prod.fst).Nodup) : ((L.filter q).map Prod.fst).Nodup := by
  induction L with
  | nil => simp
  | cons a rest ih =>
    rw [List.map_cons] at h
    obtain ⟨ha, hr⟩ := List.nodup_cons.mp h
    by_cases hqa : q a = true
    · rw [List.filter_cons_of_pos hqa, List.map_cons]
      refine List.nodup_cons.mpr ⟨?_, ih hr⟩
      intro hmem
      rcases List.mem_map.mp hmem with ⟨e, hef, heq⟩
      exact ha (heq ▸ List.mem_map_of_mem Prod.fst ((List.mem_filter.mp hef).1))
    · rw [List.filter_cons_of_neg (by simpa using hqa)]
      exact ih hr

/-- Adjacent-pair facts assemble into a `Chain'`. -/
theorem chain'_of_zip {R : String → String → Prop} :
    ∀ (l : List String), (∀ a b, (a, b) ∈ l.zip l.tail → R a b) → List.Chain' R l := by
  intro l
  induction l with
  | nil => exact fun _ => List.chain'_nil
  | cons x l2 ih =>
    intro h
    cases l2 with
    | nil => exact List.chain'_singleton x
    | cons y rest =>
      refine List.chain'_cons.mpr ⟨h x y (List.mem_cons_self _ _), ?_⟩
      exact ih (fun a b hab => h a b (List.mem_cons_of_mem _ hab))

/-- Successor structure of the subgraph induced by a backward chain: inside
the extracted lineage, each taxon's sole successor is its chain child, and
the extraction endpoint has none. -/
theorem induced_succs (g : Graph) (t : String) (l : List String)
    (hwf : Wf g) (hbch : BChain g t l) (hnd : l.Nodup) :
    (∀ a b : String, (a, b) ∈ l.zip l.tail →
      succs (inducedSubgraph g l) b = [a]) ∧
    succs (inducedSubgraph g l) t = [] := by
  have hpairs := bchain_pairs hbch
  have hlast := bchain_last hbch
  have htail_sub : l.tail ⊆ l := by
    cases l with
    | nil => exact fun x hx => hx
    | cons a l2 => exact fun x hx => List.mem_cons_of_mem a hx
  have key : ∀ e ∈ (inducedSubgraph g l).edges,
      ∃ y, (e.2, y) ∈ l.zip l.tail ∧ e.1 = y := by
    intro e he
    rcases (mem_edges_induced g l e).mp he with ⟨heg, hel1, hel2⟩
    by_cases hxlast : l.getLast? = some e.2
    · exfalso
      have hp := hlast e.2 hxlast
      have : e.1 ∈ preds g e.2 := (mem_preds g e.1 e.2).mpr heg
      rw [hp] at this
      cases this
    · obtain ⟨y, hy⟩ := mem_zip_tail_of_ne_last hel2 hxlast
      have hpx : preds g e.2 = [y] := hpairs (e.2, y) hy
      have : e.1 ∈ preds g e.2 := (mem_preds g e.1 e.2).mpr heg
      rw [hpx, List.mem_singleton] at this
      exact ⟨y, hy, this⟩
  constructor
  · intro a b hab
    have hpa : preds g a = [b] := hpairs (a, b) hab
    have hba : (b, a) ∈ g.edges :=
      (mem_preds g b a).mp (hpa ▸ List.mem_cons_self b [])
    have hal : a ∈ l := (List.of_mem_zip hab).1
    have hbl : b ∈ l := htail_sub (List.of_mem_zip hab).2
    unfold succs
    rw [filter_eq_singleton ((inducedSubgraph g l).edges) (fun e => e.1 == b)
      (b, a) (hwf.2.1.filter _)
      ((mem_edges_induced g l (b, a)).mpr ⟨hba, hbl, hal⟩) (by simp) ?_]
    · rfl
    · intro e he hpe
      have he1 : e.1 = b := by simpa using hpe
      obtain ⟨y, hy, hey⟩ := key e he
      have hby : (e.2, b) ∈ l.zip l.tail := by
        rw [← he1, hey]
        exact hy
      have he2 : e.2 = a := zip_tail_unique hnd hby hab
      exact Prod.ext he1 he2
  · have hfilter : (inducedSubgraph g l).edges.filter (fun e => e.1 == t) = [] := by
      rw [List.filter_eq_nil_iff]
      intro e he hpe
      have he1 : e.1 = t := by simpa using hpe
      obtain ⟨y, hy, hey⟩ := key e he
      have hty : t ∈ l.tail := by
        rw [← hey, he1] at hy
        exact (List.of_mem_zip hy).2
      rcases bchain_shape hbch with ⟨l2, rfl⟩
      rw [List.tail_cons] at hty
      exact (List.nodup_cons.mp hnd).1 hty
    unfold succs
    rw [hfilter]
    rfl

/-- Root structure of the subgraph induced by a backward chain: the chain's
last element (the root found by the walk) is its only root. -/
theorem induced_roots (g : Graph) (t : String) (l : List String) (lst : String)
    (hwf : Wf g) (hbch : BChain g t l) (hnd : l.Nodup) (ht : t ∈ nodeIds g)
    (hlst : l.getLast? = some lst) :
    get_root_ids (inducedSubgraph g l) = [lst] := by
  have hpairs := bchain_pairs hbch
  have hlastp := bchain_last hbch
  have hmemids := bchain_mem_ids hwf.2.2 hbch ht
  have htail_sub : l.tail ⊆ l := by
    cases l with
    | nil => exact fun x hx => hx
    | cons a l2 => exact fun x hx => List.mem_cons_of_mem a hx
  have hpred_lst : preds (inducedSubgraph g l) lst = [] := by
    rw [List.eq_nil_iff_forall_not_mem]
    intro a ha
    have hedge := (mem_preds (inducedSubgraph g l) a lst).mp ha
    rcases (mem_edges_induced g l (a, lst)).mp hedge with ⟨heg, _, _⟩
    have : a ∈ preds g lst := (mem_preds g a lst).mpr heg
    rw [hlastp lst hlst] at this
    cases this
  have hpred_ne : ∀ x ∈ l, l.getLast? ≠ some x →
      preds (inducedSubgraph g l) x ≠ [] := by
    intro x hx hxlast
    obtain ⟨y, hy⟩ := mem_zip_tail_of_ne_last hx hxlast
    have hpx : preds g x = [y] := hpairs (x, y) hy
    have hyx : (y, x) ∈ g.edges :=
      (mem_preds g y x).mp (hpx ▸ List.mem_cons_self y [])
    have hyl : y ∈ l := htail_sub (List.of_mem_zip hy).2
    have : y ∈ preds (inducedSubgraph g l) x :=
      (mem_preds (inducedSubgraph g l) y x).mpr
        ((mem_edges_induced g l (y, x)).mpr ⟨hyx, hyl, hx⟩)
    intro hcon
    rw [hcon] at this
    cases this
  have hlst_mem_l : lst ∈ l := List.mem_of_getLast?_eq_some hlst
  have hlst_ids : lst ∈ nodeIds g := hmemids lst hlst_mem_l
  rcases List.mem_map.mp hlst_ids with ⟨q, hq, hq1⟩
  have hq_ind : q ∈ (inducedSubgraph g l).nodes :=
    (mem_nodes_induced g l q).mpr ⟨hq, hq1 ▸ hlst_mem_l⟩
  have hnodes_nodup : (inducedSubgraph g l).nodes.Nodup :=
    (hwf.1.of_map Prod.fst).filter _
  have hfst_nodup : ((inducedSubgraph g l).nodes.map Prod.fst).Nodup :=
    nodup_fst_filter g.nodes _ hwf.1
  have hpq : (fun p => decide ((preds (inducedSubgraph g l) p.1).length = 0)) q
      = true := by
    show decide ((preds (inducedSubgraph g l) q.1).length = 0) = true
    rw [hq1, hpred_lst]
    rfl
  have huniq : ∀ y ∈ (inducedSubgraph g l).nodes,
      (fun p => decide ((preds (inducedSubgraph g l) p.1).length = 0)) y = true →
        y = q := by
    intro y hy hpy
    have hyl : y.1 ∈ l := ((mem_nodes_induced g l y).mp hy).2
    have hpyn : preds (inducedSubgraph g l) y.1 = [] := by
      have : (preds (inducedSubgraph g l) y.1).length = 0 := by simpa using hpy
      exact List.length_eq_zero.mp this
    by_cases hylast : l.getLast? = some y.1
    · have hy1 : y.1 = lst := by
        rw [hylast] at hlst
        injection hlst
      exact eq_of_fst_eq hfst_nodup hy hq_ind (hy1.trans hq1.symm)
    · exact absurd hpyn (hpred_ne y.1 hyl hylast)
  unfold get_root_ids
  rw [filter_eq_singleton ((inducedSubgraph g l).nodes)
    (fun p => decide ((preds (inducedSubgraph g l) p.1).length = 0)) q
    hnodes_nodup hq_ind hpq huniq]
  rw [List.map_singleton, hq1]

/-- C10: on a well-formed acyclic asexual graph, the extracted lineage of any
taxon satisfies `is_asexual_lineage`. -/
theorem C10_extract_satisfies_lineage (g : Graph) (t : String) (hwf : Wf g)
    (hac : Acyclic g) (ht : t ∈ nodeIds g) (hasex : is_asexual g = true) :
    ∃ g', extract_asexual_lineage (nodeIds g).length g t = some (Except.ok g') ∧
      is_asexual_lineage (nodeIds g').length g' = some true := by
  have hsome := backWalkF_isSome g hwf hac (nodeIds g).length t [] ht
    List.nodup_nil (fun d hd => absurd hd (List.not_mem_nil d))
    (fun d hd => absurd hd (List.not_mem_nil d)) (by simp)
  rcases Option.isSome_iff_exists.mp hsome with ⟨l, hl⟩
  have hbch : BChain g t l := backWalkF_bchain g hwf hasex (nodeIds g).length t l ht hl
  have hext : extract_asexual_lineage (nodeIds g).length g t
      = some (Except.ok (inducedSubgraph g l)) := by
    simp [extract_asexual_lineage, ht, hasex, hl]
  refine ⟨inducedSubgraph g l, hext, ?_⟩
  have hnd : l.Nodup := bchain_nodup hac hbch
  have hmemids := bchain_mem_ids hwf.2.2 hbch ht
  rcases bchain_shape hbch with ⟨l2, hshape⟩
  have hlne : l ≠ [] := by rw [hshape]; exact List.cons_ne_nil t l2
  rcases hgl : l.getLast? with _ | lst
  · exfalso
    rw [List.getLast?_eq_none_iff] at hgl
    exact hlne hgl
  have hsuccs := induced_succs g t l hwf hbch hnd
  have hroots := induced_roots g t l lst hwf hbch hnd ht hgl
  have hchainrev : List.Chain' (fun x y => succs (inducedSubgraph g l) x = [y])
      l.reverse := by
    rw [List.chain'_reverse]
    exact chain'_of_zip l (fun a b hab => hsuccs.1 a b hab)
  have hschain : SChain (inducedSubgraph g l) lst l.reverse := by
    refine schain_of_chain (inducedSubgraph g l) l.reverse lst ?_ hchainrev ?_
    · rw [List.head?_reverse]
      exact hgl
    · intro z hz
      rw [List.getLast?_reverse] at hz
      rw [hshape] at hz
      injection hz with hz
      rw [← hz]
      exact hsuccs.2
  have hlen : (nodeIds (inducedSubgraph g l)).length = l.length := by
    have hfst_nodup : (nodeIds (inducedSubgraph g l)).Nodup :=
      nodup_fst_filter g.nodes _ hwf.1
    have hsub1 : nodeIds (inducedSubgraph g l) ⊆ l := by
      intro x hx
      rcases List.mem_map.mp hx with ⟨q, hq, rfl⟩
      exact ((mem_nodes_induced g l q).mp hq).2
    have hsub2 : l ⊆ nodeIds (inducedSubgraph g l) := by
      intro x hx
      rcases List.mem_map.mp (hmemids x hx) with ⟨q, hq, hq1⟩
      refine hq1 ▸ List.mem_map_of_mem Prod.fst ?_
      exact (mem_nodes_induced g l q).mpr ⟨hq, hq1 ▸ hx⟩
    exact Nat.le_antisymm (nodup_subset_length_le hfst_nodup hsub1)
      (nodup_subset_length_le hnd hsub2)
  unfold is_asexual_lineage
  simp only [hroots]
  refine schain_loop_true (inducedSubgraph g l) hschain _ ?_
  rw [List.length_reverse, hlen]

/-- C10 witness: extracting D from the chain A→B→C→D yields a graph passing
`is_asexual_lineage`. -/
theorem C10_witness :
    Wf gABCD ∧ Acyclic gABCD ∧ ("D" : String) ∈ nodeIds gABCD ∧
    is_asexual gABCD = true ∧
    ∃ g', extract_asexual_lineage (nodeIds gABCD).length gABCD ("D")
        = some (Except.ok g') ∧
      is_asexual_lineage (nodeIds g').length g' = some true := by
  have hwf : Wf gABCD := ⟨by decide, by decide, by decide⟩
  have hac : Acyclic gABCD := acyclic_of_rank gABCD rankABCD (by decide)
  have ht : ("D" : String) ∈ nodeIds gABCD := by decide
  have hasex : is_asexual gABCD = true := by decide
  exact ⟨hwf, hac, ht, hasex, C10_extract_satisfies_lineage gABCD ("D") hwf hac ht hasex⟩

end ALife
